import Mathlib

/-!
# Verification of the klondike_chat Klondike search core

A shallow embedding, in Lean 4, of the Rust sources of the `klondike_chat`
repository (files `card.rs`, `tableau.rs`, `moves.rs`, `game.rs`,
`search.rs`), together with theorems settling the claims of the
specification against that embedding.

## Representation conventions

* A Rust `Card(u8)` (index in `0..52`) is embedded as a `Nat`.
* A Rust `Pile<N>` stores its cards bottom-first in `cards[0..len)` with the
  top at `len - 1`; `push` writes at `len`, `pop`/`top` act on `len - 1`.
  We embed a pile as a `List Nat` stored TOP-FIRST: `push` is `cons`,
  `pop`/`top` act on the head, and the Rust bottom-to-top iteration order
  (`Pile::iter`) is `List.reverse` of our list.  This is the same abstract
  stack; only the storage direction differs.
* A Rust `Column<N>` is embedded as a `List Nat` in STORAGE ORDER
  (index 0 = bottom, last = top), because the move generator addresses
  columns by storage index (`src_index`, `cards[start..len]`).  The Rust
  `len` field is the list length; `num_face_down` is kept verbatim.
* Fixed-size Rust arrays (`[Column; 7]`, `[u8; 4]` foundations) are embedded
  as lists of the corresponding length, read with `List.getD` and written
  with `List.set`.  All indices produced by the move generator are in range.
* `u8`/`u16`/`u64` arithmetic is embedded as `Nat` with an explicit `% 2^w`
  exactly where the Rust code can overflow or truncates (the `sum as u8`
  cast in `total_cards`, and every step of the 64-bit FNV-1a hash).
-/

namespace Klondike

/-- A card: a raw index in `[0, 52)` (Rust `Card(pub u8)` from `card.rs`). -/
abbrev Card := Nat

/-- `NUM_COLS` from `tableau.rs`. -/
def NUM_COLS : Nat := 7

/-- `NUM_FOUNDATIONS` from `tableau.rs`. -/
def NUM_FOUNDATIONS : Nat := 4

/-- `RANKS_PER_SUIT` from `moves.rs`. -/
def RANKS_PER_SUIT : Nat := 13

/-- `rank_index` from `moves.rs`: 0-based rank (0=Ace, 12=King). -/
def rank_index (c : Card) : Nat := c % RANKS_PER_SUIT

/-- `suit_index` from `moves.rs`: suit index 0..3. -/
def suit_index (c : Card) : Nat := c / RANKS_PER_SUIT

/-- `card_is_red` from `moves.rs`.  `suit_of` maps the suit index through
`Suit::ALL = [Hearts, Clubs, Spades, Diamonds]`, and the red suits are
Hearts (index 0) and Diamonds (index 3). -/
def card_is_red (c : Card) : Bool :=
  suit_index c == 0 || suit_index c == 3

/-- `colors_differ` from `moves.rs`. -/
def colors_differ (a b : Card) : Bool :=
  card_is_red a != card_is_red b

/-- `foundation_index_for` from `moves.rs`. -/
def foundation_index_for (c : Card) : Nat := suit_index c

/-- A tableau column (`Column<N>` from `tableau.rs`): cards in storage order
(index 0 = bottom, last = top), plus the face-down count. -/
structure Column where
  cards : List Card
  num_face_down : Nat
deriving DecidableEq, Repr

/-- `Column::new()`. -/
def Column.empty : Column := ⟨[], 0⟩

instance : Inhabited Column := ⟨Column.empty⟩

/-- `Column::push`: append a card at the top (end of storage order); a
face-down push also increments `num_face_down`. -/
def Column.push (col : Column) (c : Card) (face_down : Bool) : Column :=
  { cards := col.cards ++ [c]
    num_face_down := if face_down then col.num_face_down + 1 else col.num_face_down }

/-- `Column::num_face_up`: `len.saturating_sub(num_face_down)`. -/
def Column.num_face_up (col : Column) : Nat :=
  col.cards.length - col.num_face_down

/-- The full tableau (`Tableau` from `tableau.rs`).  `stock` and `waste` are
piles stored top-first (see the conventions above); `columns` is the list of
the 7 columns; `foundations` the 4 per-suit counters 0..=13. -/
structure Tableau where
  stock : List Card
  waste : List Card
  columns : List Column
  foundations : List Nat
deriving DecidableEq, Repr

/-- `Tableau::new_empty()`. -/
def Tableau.new_empty : Tableau :=
  { stock := [], waste := [], columns := List.replicate NUM_COLS Column.empty
    foundations := List.replicate NUM_FOUNDATIONS 0 }

/-- Column `j` of a tableau (Rust `tab.columns[j]`; out-of-range reads give
the empty column, which the Rust code never performs). -/
def Tableau.col (tab : Tableau) (j : Nat) : Column :=
  tab.columns.getD j Column.empty

/-- `Tableau::is_win`: all four foundations have reached 13. -/
def Tableau.is_win (tab : Tableau) : Bool :=
  tab.foundations.all (fun r => r == 13)

/-- The untruncated card count of a tableau: stock + waste + column lengths
+ foundation counters.  In Rust this sum is accumulated in a `u16` (which
cannot overflow, every summand being a `u8`). -/
def Tableau.rawCardCount (tab : Tableau) : Nat :=
  tab.stock.length + tab.waste.length
    + (tab.columns.map (fun col => col.cards.length)).sum
    + tab.foundations.sum

/-- `Tableau::total_cards`: the `u16` sum cast to `u8` (`sum as u8`), i.e.
the raw count reduced `% 256`. -/
def Tableau.total_cards (tab : Tableau) : Nat :=
  tab.rawCardCount % 256

/-- The dealing schedule of `Tableau::deal_from_shuffled`, as the sequence of
`(column, face_down)` pushes the two dealing loops perform in order:
6 rounds of face-down deals (round `round_start` deals to columns
`round_start..7` right-to-left), then one face-up card to each column
right-to-left. -/
def dealPushSeq : List (Nat × Bool) :=
  ((List.range' 1 (NUM_COLS - 1)).flatMap
    (fun round_start => (List.range' round_start (NUM_COLS - round_start)).reverse.map
      (fun col => (col, true))))
  ++ ((List.range NUM_COLS).reverse.map (fun col => (col, false)))

/-- One dealing step of `Tableau::deal_from_shuffled`: `t.columns[col].push(deck[idx], face_down)`
for a schedule entry `((col, face_down), card)`. -/
def dealStep (cols : List Column) (pc : (Nat × Bool) × Card) : List Column :=
  cols.set pc.1.1 ((cols.getD pc.1.1 Column.empty).push pc.2 pc.1.2)

/-- `Tableau::deal_from_shuffled`: deal the triangular layout following
`dealPushSeq` (consuming `deck[idx]` with `idx` incrementing, i.e. zipping
the schedule with the deck), then the remaining cards become the stock with
the next card drawn being `deck[idx]`.  The Rust code stores the remainder
reversed into the bottom-first array; in our top-first pile representation
that is exactly `deck.drop 28`. -/
def Tableau.deal_from_shuffled (deck : List Card) : Tableau :=
  { stock := deck.drop dealPushSeq.length
    waste := []
    columns := (dealPushSeq.zip deck).foldl dealStep
      (List.replicate NUM_COLS Column.empty)
    foundations := List.replicate NUM_FOUNDATIONS 0 }

/-! ## Moves (`moves.rs`) -/

/-- `MoveKind` from `moves.rs` (the Rust `Move` struct is a transparent
wrapper around `MoveKind`; we identify the two). -/
inductive Move where
  | ColumnToColumn (src_col src_index dst_col : Nat)
  | ColumnToFoundation (src_col : Nat)
  | WasteToColumn (dst_col : Nat)
  | WasteToFoundation
  | FlipColumn (col : Nat)
  | DealFromStock
  | RedealStock
deriving DecidableEq, Repr

/-- `can_move_to_foundation` from `moves.rs`. -/
def can_move_to_foundation (tab : Tableau) (card : Card) : Bool :=
  let top := tab.foundations.getD (foundation_index_for card) 0
  match top with
  | 0 => rank_index card == 0
  | n => rank_index card == n

/-- `can_place_on_column` from `moves.rs`. -/
def can_place_on_column (below above : Card) : Bool :=
  colors_differ below above && rank_index below == rank_index above + 1

/-- `is_valid_run` from `moves.rs`: the slice `cards[start..len]` (storage
order, deepest card first) must descend by exactly one rank with
alternating colors at every adjacent pair; the empty slice is not a run. -/
def is_valid_run : List Card → Bool
  | [] => false
  | [_] => true
  | a :: b :: rest =>
      (rank_index a == rank_index b + 1) && colors_differ a b
        && is_valid_run (b :: rest)

/-- The Column → Foundation section of `generate_legal_moves`. -/
def colToFoundationMoves (tab : Tableau) : List Move :=
  (List.range NUM_COLS).filterMap (fun col_idx =>
    let col := tab.col col_idx
    if col.cards.length = 0 then none
    else if col.cards.length ≤ col.num_face_down then none
    else
      let card := col.cards.getD (col.cards.length - 1) 0
      if can_move_to_foundation tab card then
        some (Move.ColumnToFoundation col_idx)
      else none)

/-- The Waste → Foundation section of `generate_legal_moves`. -/
def wasteToFoundationMoves (tab : Tableau) : List Move :=
  match tab.waste.head? with
  | none => []
  | some card =>
      if can_move_to_foundation tab card then [Move.WasteToFoundation] else []

/-- The Column → Column section of `generate_legal_moves`: for each source
column, each run start within the face-up region whose suffix is a valid
run, and each distinct destination column, emit the move when the
destination is empty and the run starts with a King, or when the
destination's face-up top accepts the run's first card. -/
def colToColMoves (tab : Tableau) : List Move :=
  (List.range NUM_COLS).flatMap (fun src_col_idx =>
    let col := tab.col src_col_idx
    if col.cards.length = 0 then []
    else if col.cards.length ≤ col.num_face_down then []
    else
      (List.range' col.num_face_down (col.cards.length - col.num_face_down)).flatMap
        (fun start =>
          let run_slice := col.cards.drop start
          if is_valid_run run_slice then
            let run_top_card := run_slice.headD 0
            (List.range NUM_COLS).filterMap (fun dst_col_idx =>
              if dst_col_idx = src_col_idx then none
              else
                let dst := tab.col dst_col_idx
                if dst.cards.length = 0 then
                  if rank_index run_top_card == 12 then
                    some (Move.ColumnToColumn src_col_idx start dst_col_idx)
                  else none
                else if dst.cards.length ≤ dst.num_face_down then none
                else if can_place_on_column (dst.cards.getD (dst.cards.length - 1) 0)
                    run_top_card then
                  some (Move.ColumnToColumn src_col_idx start dst_col_idx)
                else none)
          else []))

/-- The Waste → Column section of `generate_legal_moves`. -/
def wasteToColMoves (tab : Tableau) : List Move :=
  match tab.waste.head? with
  | none => []
  | some card =>
      (List.range NUM_COLS).filterMap (fun dst_col_idx =>
        let dst := tab.col dst_col_idx
        if dst.cards.length = 0 then
          if rank_index card == 12 then some (Move.WasteToColumn dst_col_idx) else none
        else if dst.cards.length ≤ dst.num_face_down then none
        else if can_place_on_column (dst.cards.getD (dst.cards.length - 1) 0) card then
          some (Move.WasteToColumn dst_col_idx)
        else none)

/-- The FlipColumn section of `generate_legal_moves`. -/
def flipColumnMoves (tab : Tableau) : List Move :=
  (List.range NUM_COLS).filterMap (fun col_idx =>
    let col := tab.col col_idx
    if 0 < col.cards.length ∧ col.num_face_down = col.cards.length then
      some (Move.FlipColumn col_idx)
    else none)

/-- The stock section of `generate_legal_moves`: Deal when the stock is
non-empty, otherwise Redeal when the waste is non-empty. -/
def stockMoves (tab : Tableau) : List Move :=
  if 0 < tab.stock.length then [Move.DealFromStock]
  else if tab.stock.length = 0 ∧ 0 < tab.waste.length then [Move.RedealStock]
  else []

/-- `generate_legal_moves` from `moves.rs`: the concatenation of the six
sections in source order. -/
def generate_legal_moves (tab : Tableau) : List Move :=
  colToFoundationMoves tab ++ wasteToFoundationMoves tab ++ colToColMoves tab
    ++ wasteToColMoves tab ++ flipColumnMoves tab ++ stockMoves tab

/-! ## Move application (`moves.rs`) -/

/-- `flip_exposed_card_after_removal` from `moves.rs`: if the column still
has cards and all of them are marked face-down, flip the newly exposed top
card (decrement `num_face_down`). -/
def flip_exposed_card_after_removal (col : Column) : Column :=
  if 0 < col.cards.length ∧ col.cards.length = col.num_face_down then
    { col with num_face_down := col.num_face_down - 1 }
  else col

/-- `move_run_between_columns` from `moves.rs`: move `src.cards[src_index..]`
onto the top of `dst` preserving order; the source keeps its first
`src_index` cards and is then subject to the automatic flip.  Returns the
updated `(src, dst)` pair.  A `src_index` at or beyond the source length is
a no-op. -/
def move_run_between_columns (src dst : Column) (src_index : Nat) :
    Column × Column :=
  if src_index ≥ src.cards.length then (src, dst)
  else
    let dst' := { dst with cards := dst.cards ++ src.cards.drop src_index }
    let src' := flip_exposed_card_after_removal
      { src with cards := src.cards.take src_index }
    (src', dst')

/-- The draw loop of the `DealFromStock` arm of `Move::apply`: pop up to
`n` cards from the stock, pushing each onto the waste. -/
def dealDraw : List Card → List Card → Nat → List Card × List Card
  | stock, waste, 0 => (stock, waste)
  | stock, waste, n + 1 =>
      match stock with
      | [] => (stock, waste)
      | c :: rest => dealDraw rest (c :: waste) n

/-- The drain loop of the `RedealStock` arm of `Move::apply`: pop every card
from the waste, pushing each onto the stock. -/
def redealDrain : List Card → List Card → List Card × List Card
  | [], stock => ([], stock)
  | c :: rest, stock => redealDrain rest (c :: stock)

/-- `Move::apply` from `moves.rs`, as a pure function on tableaus.  The Rust
`split_at_mut` in the `ColumnToColumn` arm merely obtains two distinct
mutable column references; with `s ≠ d` it is equivalent to writing both
updated columns back. -/
def Move.apply (mv : Move) (tab : Tableau) : Tableau :=
  match mv with
  | .ColumnToColumn src_col src_index dst_col =>
      if src_col = dst_col then tab
      else
        let src := tab.col src_col
        let dst := tab.col dst_col
        let res := move_run_between_columns src dst src_index
        { tab with columns := (tab.columns.set src_col res.1).set dst_col res.2 }
  | .ColumnToFoundation src_col =>
      let col := tab.col src_col
      if col.cards.length = 0 then tab
      else
        let card := col.cards.getD (col.cards.length - 1) 0
        let col' := flip_exposed_card_after_removal
          { col with cards := col.cards.dropLast }
        { tab with
            columns := tab.columns.set src_col col'
            foundations := tab.foundations.set (foundation_index_for card)
              (rank_index card + 1) }
  | .WasteToColumn dst_col =>
      match tab.waste with
      | [] => tab
      | card :: rest =>
          let dst := tab.col dst_col
          { tab with
              waste := rest
              columns := tab.columns.set dst_col
                { dst with cards := dst.cards ++ [card] } }
  | .WasteToFoundation =>
      match tab.waste with
      | [] => tab
      | card :: rest =>
          { tab with
              waste := rest
              foundations := tab.foundations.set (foundation_index_for card)
                (rank_index card + 1) }
  | .FlipColumn col_idx =>
      let col := tab.col col_idx
      if 0 < col.cards.length ∧ 0 < col.num_face_down then
        { tab with
            columns := tab.columns.set col_idx (flip_exposed_card_after_removal col) }
      else tab
  | .DealFromStock =>
      let res := dealDraw tab.stock tab.waste 3
      { tab with stock := res.1, waste := res.2 }
  | .RedealStock =>
      let res := redealDrain tab.waste tab.stock
      { tab with waste := res.1, stock := res.2 }

/-! ## Position hashing and game state (`game.rs`) -/

/-- `TerminationReason` from `game.rs`.  (Defined by the source; the solver
in `search.rs` never reports one — see the claim C1 development below.) -/
inductive TerminationReason where
  | Win
  | LossNoMoreMoves
  | MaxNodesReached
  | MaxDepthReached
  | LoopOnLastBranch
deriving DecidableEq, Repr

/-- `FNV_OFFSET_BASIS` from `game.rs`. -/
def FNV_OFFSET_BASIS : Nat := 0xcbf29ce484222325

/-- `FNV_PRIME` from `game.rs`. -/
def FNV_PRIME : Nat := 0x100000001B3

/-- `fnv1a_mix_byte` from `game.rs`: 64-bit xor then wrapping multiply. -/
def fnv1a_mix_byte (h byte : Nat) : Nat :=
  ((h ^^^ byte) * FNV_PRIME) % 2 ^ 64

/-- `hash_tableau64` from `game.rs`: mix domain-separator tags, the four
foundation counters, the stock drained top-to-bottom (our top-first list
order), the waste likewise, then for each column its `len`, its
`num_face_down` and all its cards in storage order.  `len` and
`num_face_down` are mixed as the `u8` field values, hence `% 256`. -/
def hash_tableau64 (tab : Tableau) : Nat :=
  let h := FNV_OFFSET_BASIS
  let h := fnv1a_mix_byte h 0xF0
  let h := tab.foundations.foldl fnv1a_mix_byte h
  let h := fnv1a_mix_byte h 83   -- b'S'
  let h := tab.stock.foldl fnv1a_mix_byte h
  let h := fnv1a_mix_byte h 87   -- b'W'
  let h := tab.waste.foldl fnv1a_mix_byte h
  let h := fnv1a_mix_byte h 0xC0
  (List.range NUM_COLS).foldl
    (fun h col_idx =>
      let col := tab.col col_idx
      let h := fnv1a_mix_byte h (col.cards.length % 256)
      let h := fnv1a_mix_byte h (col.num_face_down % 256)
      col.cards.foldl fnv1a_mix_byte h)
    h

/-- `GameState` from `game.rs`: initial deck, cached tableau, move list,
cached tableau hash, and the (never-set-by-the-solver) termination reason. -/
structure GameState where
  initial_deck : List Card
  tableau : Tableau
  moves : List Move
  tableau_hash : Nat
  termination_reason : Option TerminationReason
deriving DecidableEq, Repr

/-- `GameState::new`. -/
def GameState.new (initial_deck : List Card) : GameState :=
  let tableau := Tableau.deal_from_shuffled initial_deck
  { initial_deck := initial_deck
    tableau := tableau
    moves := []
    tableau_hash := hash_tableau64 tableau
    termination_reason := none }

/-- `GameState::apply_move`: mutate the cached tableau via `Move::apply`,
append the move, recompute the hash. -/
def GameState.apply_move (s : GameState) (mv : Move) : GameState :=
  let tableau := mv.apply s.tableau
  { s with
      tableau := tableau
      moves := s.moves ++ [mv]
      tableau_hash := hash_tableau64 tableau }

/-- `GameState::recompute_tableau_from_history`: re-deal the initial deck
and re-apply every recorded move in order. -/
def GameState.recompute_tableau_from_history (s : GameState) : Tableau :=
  s.moves.foldl (fun tab mv => mv.apply tab) (Tableau.deal_from_shuffled s.initial_deck)

/-! ## Bounded DFS search (`search.rs`) -/

/-- `SearchLimits` from `search.rs` (`max_nodes : u64`, `max_depth : u16`). -/
structure SearchLimits where
  max_nodes : Nat
  max_depth : Nat
deriving DecidableEq, Repr

/-- `DetailLevel` from `search.rs`; `Trace` only adds stdout printing and
has no effect on the returned outcome. -/
inductive DetailLevel where
  | Summary
  | Trace
deriving DecidableEq, Repr

/-- `SearchConfig` from `search.rs`. -/
structure SearchConfig where
  limits : SearchLimits
  detail : DetailLevel
deriving DecidableEq, Repr

/-- `GameOutcome` from `search.rs`: exactly the four fields of the source
struct.  It carries no termination reason and no dead-end / loop-pruned /
stack-depth counters. -/
structure GameOutcome where
  initial_deck : List Card
  is_win : Bool
  winning_line : Option (List Move)
  nodes_visited : Nat
deriving DecidableEq, Repr

/-- The child-expansion loop body of `solve_single_deck_with_config`: for
each legal move (in reversed order, so the first-listed move ends on top of
the stack), clone the state, apply the move, and push the child only when
its tableau hash is not yet in the visited set (which then records it). -/
def expandChildren (state : GameState) (mvs : List Move)
    (stack : List GameState) (visited : List Nat) :
    List GameState × List Nat :=
  mvs.reverse.foldl
    (fun sv mv =>
      let child := state.apply_move mv
      if child.tableau_hash ∈ sv.2 then sv
      else (child :: sv.1, child.tableau_hash :: sv.2))
    (stack, visited)

/-- The `while let Some(state) = stack.pop()` loop of
`solve_single_deck_with_config`.  The DFS stack is a list with its top at
the head.  Each iteration pops one state and increments `nodes_visited`,
and the loop breaks as soon as the counter exceeds `max_nodes`, so the loop
runs at most `max_nodes + 1` iterations; `fuel` is instantiated with
`max_nodes + 1` by the entry point below (`solveLoop_fuel_irrelevant` shows
any fuel that large gives the same result, i.e. the Rust loop terminates). -/
def solveLoop (initial_deck : List Card) (cfg : SearchConfig) :
    Nat → List GameState → List Nat → Nat → GameOutcome
  | 0, _, _, nodes_visited =>
      { initial_deck := initial_deck, is_win := false, winning_line := none
        nodes_visited := nodes_visited }
  | _ + 1, [], _, nodes_visited =>
      { initial_deck := initial_deck, is_win := false, winning_line := none
        nodes_visited := nodes_visited }
  | fuel + 1, state :: rest, visited, nodes_visited =>
      let n := nodes_visited + 1
      if cfg.limits.max_nodes < n then
        { initial_deck := initial_deck, is_win := false, winning_line := none
          nodes_visited := n }
      else if state.tableau.is_win then
        { initial_deck := state.initial_deck, is_win := true
          winning_line := some state.moves, nodes_visited := n }
      else if cfg.limits.max_depth ≤ state.moves.length then
        solveLoop initial_deck cfg fuel rest visited n
      else
        let res := expandChildren state (generate_legal_moves state.tableau) rest visited
        solveLoop initial_deck cfg fuel res.1 res.2 n

/-- `solve_single_deck_with_config` from `search.rs`: seed the stack with
the freshly dealt state, seed the visited set with its hash, and run the
DFS loop. -/
def solve_single_deck_with_config (initial_deck : List Card)
    (cfg : SearchConfig) : GameOutcome :=
  let initial_state := GameState.new initial_deck
  solveLoop initial_deck cfg (cfg.limits.max_nodes + 1)
    [initial_state] [initial_state.tableau_hash] 0

/-! ## List helpers -/

theorem set_getD_self {α : Type} (l : List α) (j : Nat) (d : α) :
    l.set j (l.getD j d) = l := by
  induction l generalizing j with
  | nil => simp
  | cons a t ih =>
      cases j with
      | zero => simp
      | succ k => simp only [List.getD_cons_succ, List.set_cons_succ, ih]

theorem getD_set_self {α : Type} {l : List α} {j : Nat} (h : j < l.length)
    (x d : α) : (l.set j x).getD j d = x := by
  rw [List.getD_eq_getElem?_getD, List.getElem?_set_self h]
  rfl

theorem getD_set_ne {α : Type} (l : List α) {j k : Nat} (h : k ≠ j)
    (x d : α) : (l.set k x).getD j d = l.getD j d := by
  rw [List.getD_eq_getElem?_getD, List.getElem?_set_ne h,
    ← List.getD_eq_getElem?_getD]

theorem eq_or_mem_of_mem_set {α : Type} {l : List α} {j : Nat} {x y : α}
    (h : y ∈ l.set j x) : y = x ∨ y ∈ l := by
  induction l generalizing j with
  | nil => simp at h
  | cons a t ih =>
      cases j with
      | zero =>
          rcases List.mem_cons.mp h with h | h
          · exact Or.inl h
          · exact Or.inr (List.mem_cons_of_mem _ h)
      | succ k =>
          rcases List.mem_cons.mp h with h | h
          · exact Or.inr (h ▸ List.mem_cons_self _ _)
          · rcases ih h with h | h
            · exact Or.inl h
            · exact Or.inr (List.mem_cons_of_mem _ h)

theorem getD_mem {α : Type} {l : List α} {j : Nat} (h : j < l.length)
    (d : α) : l.getD j d ∈ l := by
  induction l generalizing j with
  | nil => simp at h
  | cons a t ih =>
      cases j with
      | zero => simp
      | succ k =>
          simp only [List.getD_cons_succ]
          exact List.mem_cons_of_mem _ (ih (by simpa using h) )

theorem sum_map_set {α : Type} (f : α → Nat) (l : List α) {j : Nat}
    (h : j < l.length) (x : α) (d : α) :
    ((l.set j x).map f).sum + f (l.getD j d) = (l.map f).sum + f x := by
  induction l generalizing j with
  | nil => simp at h
  | cons a t ih =>
      cases j with
      | zero => simp [Nat.add_comm, Nat.add_left_comm]
      | succ k =>
          simp only [List.set_cons_succ, List.map_cons, List.sum_cons,
            List.getD_cons_succ]
          have := ih (by simpa using h)
          omega

/-! ## Claim C10: structurally inapplicable moves are no-ops -/

/-- The structurally inapplicable move shapes of claim C10. -/
def InapplicableMove (tab : Tableau) (mv : Move) : Prop :=
  (∃ d, mv = .WasteToColumn d ∧ tab.waste = [])
  ∨ (mv = .WasteToFoundation ∧ tab.waste = [])
  ∨ (∃ c, mv = .ColumnToFoundation c ∧ (tab.col c).cards = [])
  ∨ (∃ c i, mv = .ColumnToColumn c i c)
  ∨ (∃ c i d, mv = .ColumnToColumn c i d ∧ (tab.col c).cards.length ≤ i)

/-- C10: applying a structurally inapplicable move (waste move with empty
waste, foundation move from an empty column, column-to-column onto itself
or with an out-of-range start index) leaves the tableau unchanged. -/
theorem apply_inapplicable_eq_self (tab : Tableau) (mv : Move)
    (h : InapplicableMove tab mv) : mv.apply tab = tab := by
  rcases h with ⟨d, rfl, hw⟩ | ⟨rfl, hw⟩ | ⟨c, rfl, hc⟩ | ⟨c, i, rfl⟩
    | ⟨c, i, d, rfl, hlen⟩
  · simp only [Move.apply, hw]
  · simp only [Move.apply, hw]
  · have : (tab.col c).cards.length = 0 := by simp [hc]
    simp [Move.apply, this]
  · simp [Move.apply]
  · simp only [Move.apply]
    by_cases hcd : c = d
    · simp [hcd]
    · rw [if_neg hcd]
      have hrun : move_run_between_columns (tab.col c) (tab.col d) i
          = (tab.col c, tab.col d) := by
        rw [move_run_between_columns, if_pos hlen]
      rw [hrun]
      show { tab with
        columns := ((tab.columns.set c (tab.col c)).set d (tab.col d)) } = tab
      rw [Tableau.col, Tableau.col, set_getD_self, set_getD_self]

/-- Witness for C10 at a concrete input: from the ordered-deck deal (whose
waste is empty), `WasteToFoundation` is a no-op. -/
theorem apply_inapplicable_eq_self_witness :
    Move.WasteToFoundation.apply
        (Tableau.deal_from_shuffled (List.range 52))
      = Tableau.deal_from_shuffled (List.range 52) :=
  apply_inapplicable_eq_self _ _ (Or.inr (Or.inl ⟨rfl, rfl⟩))

/-! ## Claim C6: the cached tableau and hash stay consistent -/

/-- Apply a list of moves through `GameState::apply_move` (the only
sanctioned mutator). -/
def GameState.apply_moves (g : GameState) (mvs : List Move) : GameState :=
  mvs.foldl GameState.apply_move g

/-- Cache-consistency invariant of a `GameState`. -/
def GameState.CacheConsistent (g : GameState) : Prop :=
  g.tableau = g.recompute_tableau_from_history
    ∧ g.tableau_hash = hash_tableau64 g.tableau

theorem cacheConsistent_new (deck : List Card) :
    (GameState.new deck).CacheConsistent :=
  ⟨rfl, rfl⟩

theorem cacheConsistent_apply_move {g : GameState} (hg : g.CacheConsistent)
    (mv : Move) : (g.apply_move mv).CacheConsistent := by
  obtain ⟨ht, _⟩ := hg
  constructor
  · show mv.apply g.tableau
      = (g.moves ++ [mv]).foldl (fun tab mv => mv.apply tab)
          (Tableau.deal_from_shuffled g.initial_deck)
    rw [List.foldl_append]
    exact congrArg mv.apply ht
  · rfl

theorem cacheConsistent_apply_moves {g : GameState} (hg : g.CacheConsistent)
    (mvs : List Move) : (g.apply_moves mvs).CacheConsistent := by
  induction mvs generalizing g with
  | nil => exact hg
  | cons mv rest ih => exact ih (cacheConsistent_apply_move hg mv)

/-- C6: for every `GameState` created by `GameState::new` and advanced by
any sequence of `GameState::apply_move` calls, the cached tableau equals
the tableau recomputed from history (re-dealing the initial deck and
re-applying every recorded move), and the cached hash equals
`hash_tableau64` of the cached tableau. -/
theorem gameState_cache_consistent (deck : List Card) (mvs : List Move) :
    ((GameState.new deck).apply_moves mvs).tableau
        = ((GameState.new deck).apply_moves mvs).recompute_tableau_from_history
      ∧ ((GameState.new deck).apply_moves mvs).tableau_hash
        = hash_tableau64 ((GameState.new deck).apply_moves mvs).tableau :=
  cacheConsistent_apply_moves (cacheConsistent_new deck) mvs

/-! ## Claim C9: a full deal-through plus redeal restores the position -/

/-- `DealFromStock` moves the top three stock cards (fewer if the stock is
shorter) to the waste, reversing their order. -/
theorem apply_dealFromStock (tab : Tableau) :
    Move.DealFromStock.apply tab
      = { tab with
            stock := tab.stock.drop 3
            waste := (tab.stock.take 3).reverse ++ tab.waste } := by
  have hdraw : ∀ (stock waste : List Card),
      dealDraw stock waste 3 = (stock.drop 3, (stock.take 3).reverse ++ waste) := by
    intro stock waste
    match stock with
    | [] => simp [dealDraw]
    | [a] => simp [dealDraw]
    | [a, b] => simp [dealDraw]
    | a :: b :: c :: rest => simp [dealDraw]
  show { tab with
      stock := (dealDraw tab.stock tab.waste 3).1
      waste := (dealDraw tab.stock tab.waste 3).2 } = _
  rw [hdraw]

theorem redealDrain_eq (waste stock : List Card) :
    redealDrain waste stock = ([], waste.reverse ++ stock) := by
  induction waste generalizing stock with
  | nil => rfl
  | cons c rest ih =>
      rw [redealDrain, ih]
      simp

/-- `RedealStock` empties the waste back into the stock, reversing it. -/
theorem apply_redealStock (tab : Tableau) :
    Move.RedealStock.apply tab
      = { tab with waste := [], stock := tab.waste.reverse ++ tab.stock } := by
  show { tab with
      waste := (redealDrain tab.waste tab.stock).1
      stock := (redealDrain tab.waste tab.stock).2 } = _
  rw [redealDrain_eq]

/-- Iterating `DealFromStock` `k` times transfers the top `3 * k` stock
cards to the waste in reversed order. -/
theorem apply_dealFromStock_iterate (k : Nat) (tab : Tableau) :
    (Move.DealFromStock.apply)^[k] tab
      = { tab with
            stock := tab.stock.drop (3 * k)
            waste := (tab.stock.take (3 * k)).reverse ++ tab.waste } := by
  induction k with
  | zero => simp
  | succ n ih =>
      rw [Function.iterate_succ_apply', ih, apply_dealFromStock]
      have h3 : 3 * (n + 1) = 3 * n + 3 := by omega
      rw [h3, List.drop_drop, List.take_add]
      simp [Nat.add_comm]

/-- C9: from the position dealt from any 52-card permutation (whose waste
is empty and whose stock holds 24 cards), eight `DealFromStock` moves empty
the stock (and each of them has a non-empty stock to draw from), and one
`RedealStock` then restores exactly the dealt position — hence also its
64-bit fingerprint. -/
theorem deal_cycle_restores_position (deck : List Card)
    (hlen : deck.length = 52) :
    (∀ k < 8, ((Move.DealFromStock.apply)^[k]
        (Tableau.deal_from_shuffled deck)).stock ≠ [])
    ∧ ((Move.DealFromStock.apply)^[8]
        (Tableau.deal_from_shuffled deck)).stock = []
    ∧ Move.RedealStock.apply
        ((Move.DealFromStock.apply)^[8] (Tableau.deal_from_shuffled deck))
      = Tableau.deal_from_shuffled deck
    ∧ hash_tableau64 (Move.RedealStock.apply
        ((Move.DealFromStock.apply)^[8] (Tableau.deal_from_shuffled deck)))
      = hash_tableau64 (Tableau.deal_from_shuffled deck) := by
  set t := Tableau.deal_from_shuffled deck with ht
  have hstock : t.stock = deck.drop 28 := rfl
  have hwaste : t.waste = [] := rfl
  have hslen : t.stock.length = 24 := by
    rw [hstock, List.length_drop, hlen]
  have hrestore : Move.RedealStock.apply ((Move.DealFromStock.apply)^[8] t) = t := by
    rw [apply_dealFromStock_iterate, apply_redealStock]
    show ({ t with
        waste := []
        stock := ((t.stock.take (3 * 8)).reverse ++ t.waste).reverse
          ++ t.stock.drop (3 * 8) } : Tableau) = t
    have htake : t.stock.take (3 * 8) = t.stock :=
      List.take_of_length_le (by omega)
    have hdrop : t.stock.drop (3 * 8) = [] :=
      List.drop_eq_nil_of_le (by omega)
    rw [htake, hdrop, hwaste]
    simp only [List.reverse_append, List.reverse_nil, List.nil_append,
      List.reverse_reverse, List.append_nil]
    rw [← hwaste]
  refine ⟨?_, ?_, hrestore, congrArg hash_tableau64 hrestore⟩
  · intro k hk
    rw [apply_dealFromStock_iterate]
    show t.stock.drop (3 * k) ≠ []
    intro hnil
    have := List.drop_eq_nil_iff.mp hnil
    omega
  · rw [apply_dealFromStock_iterate]
    show t.stock.drop (3 * 8) = []
    exact List.drop_eq_nil_of_le (by omega)

/-- Witness for C9 at the concrete ordered deck. -/
theorem deal_cycle_restores_position_witness :
    (∀ k < 8, ((Move.DealFromStock.apply)^[k]
        (Tableau.deal_from_shuffled (List.range 52))).stock ≠ [])
    ∧ ((Move.DealFromStock.apply)^[8]
        (Tableau.deal_from_shuffled (List.range 52))).stock = []
    ∧ Move.RedealStock.apply
        ((Move.DealFromStock.apply)^[8]
          (Tableau.deal_from_shuffled (List.range 52)))
      = Tableau.deal_from_shuffled (List.range 52)
    ∧ hash_tableau64 (Move.RedealStock.apply
        ((Move.DealFromStock.apply)^[8]
          (Tableau.deal_from_shuffled (List.range 52))))
      = hash_tableau64 (Tableau.deal_from_shuffled (List.range 52)) :=
  deal_cycle_restores_position (List.range 52) (by simp)

/-! ## Claim C8: the initial deal layout -/

theorem dealStep_foldl_length (l : List ((Nat × Bool) × Card))
    (cols : List Column) : (l.foldl dealStep cols).length = cols.length := by
  induction l generalizing cols with
  | nil => rfl
  | cons pc rest ih => rw [List.foldl_cons, ih, dealStep, List.length_set]

/-- Per-column effect of the dealing fold: column `j` gains one card per
schedule entry addressed to it, and one face-down card per face-down entry
addressed to it. -/
theorem dealFold_col_stats (l : List ((Nat × Bool) × Card)) :
    ∀ (cols : List Column) (j : Nat), j < cols.length →
    ((l.foldl dealStep cols).getD j Column.empty).cards.length
        = (cols.getD j Column.empty).cards.length
          + l.countP (fun pc => pc.1.1 == j)
    ∧ ((l.foldl dealStep cols).getD j Column.empty).num_face_down
        = (cols.getD j Column.empty).num_face_down
          + l.countP (fun pc => pc.1.1 == j && pc.1.2) := by
  induction l with
  | nil => intro cols j hj; simp
  | cons pc rest ih =>
      intro cols j hj
      rw [List.foldl_cons]
      have hlen : j < (dealStep cols pc).length := by
        rw [dealStep, List.length_set]; exact hj
      obtain ⟨ihl, ihf⟩ := ih (dealStep cols pc) j hlen
      by_cases hk : pc.1.1 = j
      · have hgd : (dealStep cols pc).getD j Column.empty
            = (cols.getD j Column.empty).push pc.2 pc.1.2 := by
          rw [dealStep, hk, getD_set_self hj]
        constructor
        · rw [ihl, hgd, List.countP_cons]
          simp only [Column.push, List.length_append, List.length_cons,
            List.length_nil]
          simp [hk]
          omega
        · rw [ihf, hgd, List.countP_cons]
          cases hfd : pc.1.2 with
          | true =>
              simp only [Column.push, hfd, if_true]
              simp [hk]
              omega
          | false =>
              simp only [Column.push, hfd, if_false]
              simp [hk, hfd]
      · have hgd : (dealStep cols pc).getD j Column.empty
            = cols.getD j Column.empty := by
          rw [dealStep]
          exact getD_set_ne cols hk _ _
        have h1 : (pc.1.1 == j) = false := by simp [hk]
        have h2 : (pc.1.1 == j && pc.1.2) = false := by simp [h1]
        constructor
        · rw [ihl, hgd, List.countP_cons, h1]; simp
        · rw [ihf, hgd, List.countP_cons, h2]; simp

/-- Zipping the schedule with a long-enough deck does not change the
schedule-only counts. -/
theorem countP_zip_fst {α β : Type} (p : α → Bool) :
    ∀ (ps : List α) (deck : List β), ps.length ≤ deck.length →
      (ps.zip deck).countP (fun pc => p pc.1) = ps.countP p := by
  intro ps
  induction ps with
  | nil => intro deck _; rfl
  | cons a t ih =>
      intro deck hlen
      cases deck with
      | nil => simp at hlen
      | cons d rest =>
          rw [List.zip_cons_cons, List.countP_cons, List.countP_cons,
            ih rest (by simpa using hlen)]

/-- C8: dealing any 52-card permutation yields: column `i` holds exactly
`i + 1` cards of which exactly `i` are face-down (hence exactly one
face-up); the waste and the foundations are empty; the remaining 24 cards
form the stock, and the `n`-th card drawn from the stock is card `28 + n`
of the permutation, i.e. draws return the undealt cards in the
permutation's relative order. -/
theorem deal_layout (deck : List Card) (hlen : deck.length = 52) :
    (∀ i < NUM_COLS,
        ((Tableau.deal_from_shuffled deck).col i).cards.length = i + 1
        ∧ ((Tableau.deal_from_shuffled deck).col i).num_face_down = i
        ∧ ((Tableau.deal_from_shuffled deck).col i).num_face_up = 1)
    ∧ (Tableau.deal_from_shuffled deck).waste = []
    ∧ (Tableau.deal_from_shuffled deck).foundations = [0, 0, 0, 0]
    ∧ (Tableau.deal_from_shuffled deck).stock.length = 24
    ∧ (∀ n, (Tableau.deal_from_shuffled deck).stock[n]? = deck[28 + n]?) := by
  refine ⟨?_, rfl, rfl, ?_, ?_⟩
  · intro i hi
    simp only [NUM_COLS] at hi
    have hrep : i < (List.replicate NUM_COLS Column.empty).length := by
      simpa [NUM_COLS] using hi
    have hstats := dealFold_col_stats (dealPushSeq.zip deck)
      (List.replicate NUM_COLS Column.empty) i hrep
    have hzs : dealPushSeq.length ≤ deck.length := by
      rw [hlen]; decide
    have hc1 : (dealPushSeq.zip deck).countP (fun pc => pc.1.1 == i)
        = dealPushSeq.countP (fun q => q.1 == i) :=
      countP_zip_fst (fun q => q.1 == i) dealPushSeq deck hzs
    have hc2 : (dealPushSeq.zip deck).countP (fun pc => pc.1.1 == i && pc.1.2)
        = dealPushSeq.countP (fun q => q.1 == i && q.2) :=
      countP_zip_fst (fun q => q.1 == i && q.2) dealPushSeq deck hzs
    have hbase : (List.replicate NUM_COLS Column.empty).getD i Column.empty
        = Column.empty := by
      rw [List.getD_eq_getElem?_getD, List.getElem?_replicate, if_pos (by simpa using hi)]
      rfl
    have hcol : (Tableau.deal_from_shuffled deck).col i
        = ((dealPushSeq.zip deck).foldl dealStep
            (List.replicate NUM_COLS Column.empty)).getD i Column.empty := rfl
    rw [hcol]
    obtain ⟨hl, hf⟩ := hstats
    rw [hbase] at hl hf
    rw [hc1] at hl
    rw [hc2] at hf
    have hcnt1 : dealPushSeq.countP (fun q => q.1 == i) = i + 1 := by
      interval_cases i <;> decide
    have hcnt2 : dealPushSeq.countP (fun q => q.1 == i && q.2) = i := by
      interval_cases i <;> decide
    refine ⟨by rw [hl, hcnt1]; simp [Column.empty],
      by rw [hf, hcnt2]; simp [Column.empty], ?_⟩
    rw [Column.num_face_up, hl, hcnt1, hf, hcnt2]
    simp [Column.empty]
  · show (deck.drop dealPushSeq.length).length = 24
    rw [List.length_drop, hlen]; rfl
  · intro n
    show (deck.drop dealPushSeq.length)[n]? = deck[28 + n]?
    have h28 : dealPushSeq.length = 28 := by decide
    rw [List.getElem?_drop, h28]

/-- Witness for C8 at the concrete ordered deck. -/
theorem deal_layout_witness :
    (∀ i < NUM_COLS,
        ((Tableau.deal_from_shuffled (List.range 52)).col i).cards.length = i + 1
        ∧ ((Tableau.deal_from_shuffled (List.range 52)).col i).num_face_down = i
        ∧ ((Tableau.deal_from_shuffled (List.range 52)).col i).num_face_up = 1)
    ∧ (Tableau.deal_from_shuffled (List.range 52)).waste = []
    ∧ (Tableau.deal_from_shuffled (List.range 52)).foundations = [0, 0, 0, 0]
    ∧ (Tableau.deal_from_shuffled (List.range 52)).stock.length = 24
    ∧ (∀ n, (Tableau.deal_from_shuffled (List.range 52)).stock[n]?
        = (List.range 52)[28 + n]?) :=
  deal_layout (List.range 52) (by simp)

/-! ## Membership characterizations of the move-generator sections -/

/-- The top card of a column (Rust `col.cards[col.len - 1]`). -/
def Column.topCard (col : Column) : Card :=
  col.cards.getD (col.cards.length - 1) 0

theorem mem_colToFoundationMoves {tab : Tableau} {mv : Move} :
    mv ∈ colToFoundationMoves tab
      ↔ ∃ c, c < NUM_COLS
          ∧ 0 < (tab.col c).cards.length
          ∧ (tab.col c).num_face_down < (tab.col c).cards.length
          ∧ can_move_to_foundation tab (tab.col c).topCard = true
          ∧ mv = .ColumnToFoundation c := by
  simp only [colToFoundationMoves, List.mem_filterMap, List.mem_range,
    Option.ite_none_left_eq_some, Option.ite_none_right_eq_some,
    Option.some.injEq, Column.topCard]
  constructor
  · rintro ⟨c, hc, h0, hfd, hcan, rfl⟩
    exact ⟨c, hc, Nat.pos_of_ne_zero h0, Nat.lt_of_not_le hfd, hcan, rfl⟩
  · rintro ⟨c, hc, h0, hfd, hcan, rfl⟩
    exact ⟨c, hc, Nat.pos_iff_ne_zero.mp h0, Nat.not_le_of_lt hfd, hcan, rfl⟩

theorem mem_wasteToFoundationMoves {tab : Tableau} {mv : Move} :
    mv ∈ wasteToFoundationMoves tab
      ↔ ∃ card, tab.waste.head? = some card
          ∧ can_move_to_foundation tab card = true
          ∧ mv = .WasteToFoundation := by
  rw [wasteToFoundationMoves]
  rcases hw : tab.waste.head? with _ | card
  · simp
  · by_cases hcan : can_move_to_foundation tab card = true
    · simp [hcan]
    · simp [hcan]

/-- The destination-side condition of a Column → Column or Waste → Column
placement of `first` onto column `d` of `tab`. -/
def DstAccepts (tab : Tableau) (d : Nat) (first : Card) : Prop :=
  ((tab.col d).cards.length = 0 ∧ rank_index first = 12)
  ∨ (0 < (tab.col d).cards.length
      ∧ (tab.col d).num_face_down < (tab.col d).cards.length
      ∧ can_place_on_column (tab.col d).topCard first = true)

theorem mem_colToColMoves {tab : Tableau} {mv : Move} :
    mv ∈ colToColMoves tab
      ↔ ∃ c s d, c < NUM_COLS ∧ d < NUM_COLS ∧ d ≠ c
          ∧ (tab.col c).num_face_down ≤ s
          ∧ s < (tab.col c).cards.length
          ∧ is_valid_run ((tab.col c).cards.drop s) = true
          ∧ DstAccepts tab d (((tab.col c).cards.drop s).headD 0)
          ∧ mv = .ColumnToColumn c s d := by
  rw [colToColMoves]
  simp only [List.mem_flatMap, List.mem_range]
  constructor
  · rintro ⟨c, hc, hbody⟩
    by_cases h0 : (tab.col c).cards.length = 0
    · rw [if_pos h0] at hbody; simp at hbody
    by_cases hafd : (tab.col c).cards.length ≤ (tab.col c).num_face_down
    · rw [if_neg h0, if_pos hafd] at hbody; simp at hbody
    rw [if_neg h0, if_neg hafd] at hbody
    simp only [List.mem_flatMap, List.mem_range'_1] at hbody
    obtain ⟨s, ⟨hs1, hs2⟩, hinner⟩ := hbody
    have hslt : s < (tab.col c).cards.length := by omega
    rcases hrun : is_valid_run ((tab.col c).cards.drop s) with _ | _
    · rw [if_neg (by simp [hrun])] at hinner; simp at hinner
    rw [if_pos hrun] at hinner
    simp only [List.mem_filterMap, List.mem_range] at hinner
    obtain ⟨d, hd, hopt⟩ := hinner
    rw [Option.ite_none_left_eq_some] at hopt
    obtain ⟨hdc, hopt⟩ := hopt
    by_cases hde : (tab.col d).cards.length = 0
    · rw [if_pos hde, Option.ite_none_right_eq_some, Option.some.injEq] at hopt
      obtain ⟨hking, rfl⟩ := hopt
      exact ⟨c, s, d, hc, hd, hdc, hs1, hslt, hrun,
        Or.inl ⟨hde, by simpa using hking⟩, rfl⟩
    · rw [if_neg hde, Option.ite_none_left_eq_some] at hopt
      obtain ⟨hdfd, hopt⟩ := hopt
      rw [Option.ite_none_right_eq_some, Option.some.injEq] at hopt
      obtain ⟨hplace, rfl⟩ := hopt
      exact ⟨c, s, d, hc, hd, hdc, hs1, hslt, hrun,
        Or.inr ⟨Nat.pos_of_ne_zero hde, Nat.lt_of_not_le hdfd, hplace⟩, rfl⟩
  · rintro ⟨c, s, d, hc, hd, hdc, hs1, hslt, hrun, hdst, rfl⟩
    refine ⟨c, hc, ?_⟩
    rw [if_neg (by omega), if_neg (by omega)]
    simp only [List.mem_flatMap, List.mem_range'_1]
    refine ⟨s, ⟨hs1, by omega⟩, ?_⟩
    rw [if_pos hrun]
    simp only [List.mem_filterMap, List.mem_range]
    refine ⟨d, hd, ?_⟩
    rw [Option.ite_none_left_eq_some]
    refine ⟨hdc, ?_⟩
    rcases hdst with ⟨hde, hking⟩ | ⟨hdpos, hdfd, hplace⟩
    · rw [if_pos hde, Option.ite_none_right_eq_some, Option.some.injEq]
      exact ⟨by simpa using hking, rfl⟩
    · rw [if_neg (by omega), Option.ite_none_left_eq_some]
      refine ⟨by omega, ?_⟩
      rw [Option.ite_none_right_eq_some, Option.some.injEq]
      exact ⟨hplace, rfl⟩

theorem mem_wasteToColMoves {tab : Tableau} {mv : Move} :
    mv ∈ wasteToColMoves tab
      ↔ ∃ card d, tab.waste.head? = some card ∧ d < NUM_COLS
          ∧ DstAccepts tab d card ∧ mv = .WasteToColumn d := by
  rw [wasteToColMoves]
  rcases hw : tab.waste.head? with _ | card
  · simp
  · simp only [List.mem_filterMap, List.mem_range, Option.some.injEq]
    constructor
    · rintro ⟨d, hd, hopt⟩
      by_cases hde : (tab.col d).cards.length = 0
      · rw [if_pos hde, Option.ite_none_right_eq_some, Option.some.injEq] at hopt
        obtain ⟨hking, rfl⟩ := hopt
        exact ⟨card, d, rfl, hd, Or.inl ⟨hde, by simpa using hking⟩, rfl⟩
      · rw [if_neg hde, Option.ite_none_left_eq_some] at hopt
        obtain ⟨hdfd, hopt⟩ := hopt
        rw [Option.ite_none_right_eq_some, Option.some.injEq] at hopt
        obtain ⟨hplace, rfl⟩ := hopt
        exact ⟨card, d, rfl, hd,
          Or.inr ⟨Nat.pos_of_ne_zero hde, Nat.lt_of_not_le hdfd, hplace⟩, rfl⟩
    · rintro ⟨card', d, hcard, hd, hdst, rfl⟩
      obtain rfl : card' = card := hcard.symm
      refine ⟨d, hd, ?_⟩
      rcases hdst with ⟨hde, hking⟩ | ⟨hdpos, hdfd, hplace⟩
      · rw [if_pos hde, Option.ite_none_right_eq_some, Option.some.injEq]
        exact ⟨by simpa using hking, rfl⟩
      · rw [if_neg (by omega), Option.ite_none_left_eq_some]
        refine ⟨by omega, ?_⟩
        rw [Option.ite_none_right_eq_some, Option.some.injEq]
        exact ⟨hplace, rfl⟩

theorem mem_flipColumnMoves {tab : Tableau} {mv : Move} :
    mv ∈ flipColumnMoves tab
      ↔ ∃ c, c < NUM_COLS ∧ 0 < (tab.col c).cards.length
          ∧ (tab.col c).num_face_down = (tab.col c).cards.length
          ∧ mv = .FlipColumn c := by
  simp only [flipColumnMoves, List.mem_filterMap, List.mem_range,
    Option.ite_none_right_eq_some, Option.some.injEq]
  constructor
  · rintro ⟨c, hc, ⟨h0, hfd⟩, rfl⟩
    exact ⟨c, hc, h0, hfd, rfl⟩
  · rintro ⟨c, hc, h0, hfd, rfl⟩
    exact ⟨c, hc, ⟨h0, hfd⟩, rfl⟩

theorem mem_stockMoves {tab : Tableau} {mv : Move} :
    mv ∈ stockMoves tab
      ↔ (0 < tab.stock.length ∧ mv = .DealFromStock)
        ∨ (tab.stock = [] ∧ 0 < tab.waste.length ∧ mv = .RedealStock) := by
  rw [stockMoves]
  by_cases hs : 0 < tab.stock.length
  · rw [if_pos hs]
    simp only [List.mem_singleton]
    constructor
    · exact fun h => Or.inl ⟨hs, h⟩
    · rintro (⟨_, rfl⟩ | ⟨hnil, _, _⟩)
      · rfl
      · rw [hnil] at hs; simp at hs
  · rw [if_neg hs]
    have hnil : tab.stock = [] := by
      cases h : tab.stock with
      | nil => rfl
      | cons a t => rw [h] at hs; simp at hs
    by_cases hw : 0 < tab.waste.length
    · rw [if_pos ⟨by omega, hw⟩]
      simp only [List.mem_singleton]
      constructor
      · exact fun h => Or.inr ⟨hnil, hw, h⟩
      · rintro (⟨h0, _⟩ | ⟨_, _, rfl⟩)
        · omega
        · rfl
    · rw [if_neg (by intro h; exact hw h.2)]
      constructor
      · intro h; simp at h
      · rintro (⟨h0, _⟩ | ⟨_, hw2, _⟩)
        · omega
        · exact absurd hw2 hw

/-- Splitting membership in `generate_legal_moves` into its six sections. -/
theorem mem_generate_legal_moves {tab : Tableau} {mv : Move} :
    mv ∈ generate_legal_moves tab
      ↔ mv ∈ colToFoundationMoves tab ∨ mv ∈ wasteToFoundationMoves tab
        ∨ mv ∈ colToColMoves tab ∨ mv ∈ wasteToColMoves tab
        ∨ mv ∈ flipColumnMoves tab ∨ mv ∈ stockMoves tab := by
  simp [generate_legal_moves, List.mem_append, or_assoc]

/-! ## Claim C7: characterization of generated Column → Column moves -/

/-- The claim's formulation of a movable run: a non-empty card sequence
(deepest card first) whose successive ranks descend by exactly one and
whose colors strictly alternate; a single card is trivially a run. -/
def SpecRun (l : List Card) : Prop :=
  l ≠ []
    ∧ l.Chain' (fun a b => rank_index a = rank_index b + 1
        ∧ card_is_red a ≠ card_is_red b)

theorem colors_differ_iff {a b : Card} :
    colors_differ a b = true ↔ card_is_red a ≠ card_is_red b := by
  rw [colors_differ, bne_iff_ne]

theorem is_valid_run_iff_specRun (l : List Card) :
    is_valid_run l = true ↔ SpecRun l := by
  induction l with
  | nil => simp [is_valid_run, SpecRun]
  | cons a t ih =>
      cases t with
      | nil => simp [is_valid_run, SpecRun]
      | cons b rest =>
          rw [is_valid_run, SpecRun, List.chain'_cons]
          rw [SpecRun] at ih
          simp only [Bool.and_eq_true, beq_iff_eq, colors_differ_iff] at *
          constructor
          · rintro ⟨⟨hrank, hcol⟩, hrest⟩
            exact ⟨by simp, ⟨hrank, hcol⟩, ((ih.mp hrest).2)⟩
          · rintro ⟨_, ⟨hrank, hcol⟩, hchain⟩
            exact ⟨⟨hrank, hcol⟩, ih.mpr ⟨by simp, hchain⟩⟩

theorem headD_drop_eq_getD (l : List Card) (n : Nat) (d : Card) :
    (l.drop n).headD d = l.getD n d := by
  rw [List.headD_eq_head?_getD, List.head?_drop, List.getD_eq_getElem?_getD]

/-- C7: `generate_legal_moves` emits `ColumnToColumn c s d` exactly when
`c` and `d` are distinct column indices, the suffix of column `c` from
storage index `s` to its top lies entirely in the face-up region and forms
a descending alternating-color run, and either column `d` is empty and the
run's first card is a King (rank index 12, the highest), or column `d`'s
top card is face-up, exactly one rank above the run's first card, and of
the opposite color. -/
theorem c2c_generated_iff (tab : Tableau) (c s d : Nat) :
    Move.ColumnToColumn c s d ∈ generate_legal_moves tab
      ↔ c < NUM_COLS ∧ d < NUM_COLS ∧ d ≠ c
        ∧ (tab.col c).num_face_down ≤ s ∧ s < (tab.col c).cards.length
        ∧ SpecRun ((tab.col c).cards.drop s)
        ∧ (((tab.col d).cards = []
              ∧ rank_index ((tab.col c).cards.getD s 0) = 12)
           ∨ ((tab.col d).cards ≠ []
              ∧ (tab.col d).num_face_down < (tab.col d).cards.length
              ∧ rank_index (tab.col d).topCard
                  = rank_index ((tab.col c).cards.getD s 0) + 1
              ∧ card_is_red (tab.col d).topCard
                  ≠ card_is_red ((tab.col c).cards.getD s 0))) := by
  rw [mem_generate_legal_moves]
  constructor
  · rintro (h | h | h | h | h | h)
    · obtain ⟨_, _, _, _, _, h⟩ := mem_colToFoundationMoves.mp h
      exact absurd h (by simp)
    · obtain ⟨_, _, _, h⟩ := mem_wasteToFoundationMoves.mp h
      exact absurd h (by simp)
    · obtain ⟨c', s', d', hc, hd, hdc, hfd, hlt, hrun, hdst, heq⟩ :=
        mem_colToColMoves.mp h
      obtain ⟨rfl, rfl, rfl⟩ : c = c' ∧ s = s' ∧ d = d' := by
        cases heq; exact ⟨rfl, rfl, rfl⟩
      refine ⟨hc, hd, hdc, hfd, hlt, (is_valid_run_iff_specRun _).mp hrun, ?_⟩
      rw [DstAccepts, headD_drop_eq_getD] at hdst
      rcases hdst with ⟨hde, hking⟩ | ⟨hdpos, hdfd, hplace⟩
      · exact Or.inl ⟨List.length_eq_zero.mp hde, hking⟩
      · rw [can_place_on_column, Bool.and_eq_true, beq_iff_eq,
          colors_differ_iff] at hplace
        refine Or.inr ⟨?_, hdfd, hplace.2, hplace.1⟩
        intro hnil
        rw [hnil] at hdpos
        simp at hdpos
    · obtain ⟨_, _, _, _, _, h⟩ := mem_wasteToColMoves.mp h
      exact absurd h (by simp)
    · obtain ⟨_, _, _, _, h⟩ := mem_flipColumnMoves.mp h
      exact absurd h (by simp)
    · rcases mem_stockMoves.mp h with ⟨_, h⟩ | ⟨_, _, h⟩ <;>
        exact absurd h (by simp)
  · rintro ⟨hc, hd, hdc, hfd, hlt, hrun, hdst⟩
    refine Or.inr (Or.inr (Or.inl (mem_colToColMoves.mpr
      ⟨c, s, d, hc, hd, hdc, hfd, hlt, (is_valid_run_iff_specRun _).mpr hrun, ?_, rfl⟩)))
    rw [DstAccepts, headD_drop_eq_getD]
    rcases hdst with ⟨hde, hking⟩ | ⟨hdne, hdfd, hrank, hcol⟩
    · exact Or.inl ⟨by rw [hde]; rfl, hking⟩
    · refine Or.inr ⟨List.length_pos.mpr hdne, hdfd, ?_⟩
      rw [can_place_on_column, Bool.and_eq_true, beq_iff_eq, colors_differ_iff]
      exact ⟨hcol, hrank⟩

/-! ## Normal forms of `Move::apply` for each move shape -/

theorem apply_columnToFoundation (tab : Tableau) (c : Nat)
    (h0 : ¬ (tab.col c).cards.length = 0) :
    (Move.ColumnToFoundation c).apply tab
      = { tab with
          columns := tab.columns.set c (flip_exposed_card_after_removal
            { cards := (tab.col c).cards.dropLast
              num_face_down := (tab.col c).num_face_down })
          foundations := tab.foundations.set
            (foundation_index_for (tab.col c).topCard)
            (rank_index (tab.col c).topCard + 1) } := by
  simp only [Move.apply, Column.topCard]
  rw [if_neg h0]

theorem apply_columnToColumn (tab : Tableau) (c s d : Nat) (hne : ¬ c = d)
    (hs : s < (tab.col c).cards.length) :
    (Move.ColumnToColumn c s d).apply tab
      = { tab with
          columns := (tab.columns.set c (flip_exposed_card_after_removal
              { cards := (tab.col c).cards.take s
                num_face_down := (tab.col c).num_face_down })).set d
            { cards := (tab.col d).cards ++ (tab.col c).cards.drop s
              num_face_down := (tab.col d).num_face_down } } := by
  simp only [Move.apply]
  rw [if_neg hne, move_run_between_columns, if_neg (by omega)]

theorem apply_wasteToColumn (tab : Tableau) (d : Nat) (card : Card)
    (rest : List Card) (hw : tab.waste = card :: rest) :
    (Move.WasteToColumn d).apply tab
      = { tab with
          waste := rest
          columns := tab.columns.set d
            { cards := (tab.col d).cards ++ [card]
              num_face_down := (tab.col d).num_face_down } } := by
  simp only [Move.apply, hw]

theorem apply_wasteToFoundation (tab : Tableau) (card : Card)
    (rest : List Card) (hw : tab.waste = card :: rest) :
    Move.WasteToFoundation.apply tab
      = { tab with
          waste := rest
          foundations := tab.foundations.set (foundation_index_for card)
            (rank_index card + 1) } := by
  simp only [Move.apply, hw]

theorem apply_flipColumn (tab : Tableau) (c : Nat)
    (h : 0 < (tab.col c).cards.length ∧ 0 < (tab.col c).num_face_down) :
    (Move.FlipColumn c).apply tab
      = { tab with
          columns := tab.columns.set c
            (flip_exposed_card_after_removal (tab.col c)) } := by
  simp only [Move.apply]
  rw [if_pos h]

/-! ## Claim C4: legal moves conserve `total_cards` -/

/-- Structural well-formedness maintained by dealing and by legal moves:
the fixed array lengths of the Rust representation, and every card a valid
index below 52. -/
def WF (tab : Tableau) : Prop :=
  tab.columns.length = NUM_COLS
    ∧ tab.foundations.length = NUM_FOUNDATIONS
    ∧ (∀ x ∈ tab.stock, x < 52)
    ∧ (∀ x ∈ tab.waste, x < 52)
    ∧ (∀ col ∈ tab.columns, ∀ x ∈ col.cards, x < 52)

theorem sum_set_nat (l : List Nat) {j : Nat} (h : j < l.length) (x : Nat) :
    (l.set j x).sum + l.getD j 0 = l.sum + x := by
  induction l generalizing j with
  | nil => simp at h
  | cons a t ih =>
      cases j with
      | zero => simp [Nat.add_comm, Nat.add_left_comm]
      | succ k =>
          simp only [List.set_cons_succ, List.sum_cons, List.getD_cons_succ]
          have := ih (by simpa using h)
          omega

/-- Both arms of the Rust `match` in `can_move_to_foundation` test
`rank_index card == top`. -/
theorem can_move_to_foundation_iff {tab : Tableau} {card : Card} :
    can_move_to_foundation tab card = true
      ↔ rank_index card
          = tab.foundations.getD (foundation_index_for card) 0 := by
  rw [can_move_to_foundation]
  cases htop : tab.foundations.getD (foundation_index_for card) 0 with
  | zero => simp
  | succ n => simp

/-- The automatic flip never changes a column's cards. -/
theorem flip_cards (col : Column) :
    (flip_exposed_card_after_removal col).cards = col.cards := by
  rw [flip_exposed_card_after_removal]
  split <;> rfl

theorem suit_index_lt_of_lt {x : Card} (h : x < 52) : suit_index x < 4 := by
  have h2 : x < 4 * 13 := lt_of_lt_of_le h (by norm_num)
  rw [suit_index, RANKS_PER_SUIT]
  exact (Nat.div_lt_iff_lt_mul (by norm_num)).mpr h2

/-- Applying any move produced by `generate_legal_moves` preserves the raw
card count and well-formedness. -/
theorem apply_legal_preserves (tab : Tableau) (mv : Move) (hwf : WF tab)
    (hm : mv ∈ generate_legal_moves tab) :
    (mv.apply tab).rawCardCount = tab.rawCardCount ∧ WF (mv.apply tab) := by
  obtain ⟨hcols, hfnd, hstock, hwaste, hcards⟩ := hwf
  rcases mem_generate_legal_moves.mp hm with h | h | h | h | h | h
  · -- Column → Foundation
    obtain ⟨c, hc, h0, hfdlt, hcan, rfl⟩ := mem_colToFoundationMoves.mp h
    have hclen : c < tab.columns.length := by rw [hcols]; exact hc
    have hcolmem : tab.col c ∈ tab.columns := getD_mem hclen _
    have hcard : (tab.col c).topCard ∈ (tab.col c).cards :=
      getD_mem (by omega) _
    have hcard52 : (tab.col c).topCard < 52 := hcards _ hcolmem _ hcard
    have hflt : foundation_index_for (tab.col c).topCard
        < tab.foundations.length := by
      rw [hfnd]; exact suit_index_lt_of_lt hcard52
    rw [apply_columnToFoundation tab c (by omega)]
    constructor
    · simp only [Tableau.rawCardCount]
      have hs1 := sum_map_set (fun col => col.cards.length) tab.columns hclen
        (flip_exposed_card_after_removal
          { cards := (tab.col c).cards.dropLast
            num_face_down := (tab.col c).num_face_down }) Column.empty
      have hs2 := sum_set_nat tab.foundations hflt
        (rank_index (tab.col c).topCard + 1)
      have hold : tab.foundations.getD
          (foundation_index_for (tab.col c).topCard) 0
          = rank_index (tab.col c).topCard :=
        (can_move_to_foundation_iff.mp hcan).symm
      rw [hold] at hs2
      have hcc : tab.columns.getD c Column.empty = tab.col c := rfl
      rw [hcc] at hs1
      simp only [flip_cards, List.length_dropLast] at hs1
      omega
    · refine ⟨by simpa using hcols, by simpa using hfnd, hstock, hwaste, ?_⟩
      intro col hcol x hx
      rcases eq_or_mem_of_mem_set hcol with rfl | hcol
      · rw [flip_cards] at hx
        exact hcards _ hcolmem _ (List.dropLast_subset _ hx)
      · exact hcards _ hcol _ hx
  · -- Waste → Foundation
    obtain ⟨card, hhead, hcan, rfl⟩ := mem_wasteToFoundationMoves.mp h
    obtain ⟨rest, hw⟩ : ∃ rest, tab.waste = card :: rest := by
      cases hwq : tab.waste with
      | nil => rw [hwq] at hhead; simp at hhead
      | cons a t =>
          rw [hwq] at hhead
          simp only [List.head?_cons, Option.some.injEq] at hhead
          exact ⟨t, by rw [hhead]⟩
    have hcard52 : card < 52 :=
      hwaste _ (by rw [hw]; exact List.mem_cons_self _ _)
    have hflt : foundation_index_for card < tab.foundations.length := by
      rw [hfnd]; exact suit_index_lt_of_lt hcard52
    rw [apply_wasteToFoundation tab card rest hw]
    constructor
    · simp only [Tableau.rawCardCount]
      have hs2 := sum_set_nat tab.foundations hflt (rank_index card + 1)
      have hold : tab.foundations.getD (foundation_index_for card) 0
          = rank_index card := (can_move_to_foundation_iff.mp hcan).symm
      rw [hold] at hs2
      rw [hw]
      simp only [List.length_cons]
      omega
    · refine ⟨hcols, by simpa using hfnd, hstock, ?_, hcards⟩
      intro x hx
      exact hwaste _ (by rw [hw]; exact List.mem_cons_of_mem _ hx)
  · -- Column → Column
    obtain ⟨c, s, d, hc, hd, hdc, hfds, hslt, hrun, hdst, rfl⟩ :=
      mem_colToColMoves.mp h
    have hclen : c < tab.columns.length := by rw [hcols]; exact hc
    have hdlen : d < tab.columns.length := by rw [hcols]; exact hd
    have hne : ¬ c = d := fun hcd => hdc hcd.symm
    rw [apply_columnToColumn tab c s d hne hslt]
    constructor
    · simp only [Tableau.rawCardCount]
      have hs1 := sum_map_set (fun col => col.cards.length) tab.columns hclen
        (flip_exposed_card_after_removal
          { cards := (tab.col c).cards.take s
            num_face_down := (tab.col c).num_face_down }) Column.empty
      have hdlen1 : d < (tab.columns.set c (flip_exposed_card_after_removal
          { cards := (tab.col c).cards.take s
            num_face_down := (tab.col c).num_face_down })).length := by
        rw [List.length_set]; exact hdlen
      have hs2 := sum_map_set (fun col => col.cards.length)
        (tab.columns.set c (flip_exposed_card_after_removal
          { cards := (tab.col c).cards.take s
            num_face_down := (tab.col c).num_face_down })) hdlen1
        { cards := (tab.col d).cards ++ (tab.col c).cards.drop s
          num_face_down := (tab.col d).num_face_down } Column.empty
      have hgd : (tab.columns.set c (flip_exposed_card_after_removal
          { cards := (tab.col c).cards.take s
            num_face_down := (tab.col c).num_face_down })).getD d Column.empty
          = tab.col d := getD_set_ne _ hne _ _
      rw [hgd] at hs2
      have hcc : tab.columns.getD c Column.empty = tab.col c := rfl
      rw [hcc] at hs1
      simp only [flip_cards, List.length_take, List.length_append,
        List.length_drop] at hs1 hs2
      omega
    · refine ⟨by simp [hcols], by simpa using hfnd, hstock, hwaste, ?_⟩
      intro col hcol x hx
      rcases eq_or_mem_of_mem_set hcol with rfl | hcol
      · simp only [List.mem_append] at hx
        rcases hx with hx | hx
        · exact hcards _ (getD_mem hdlen _) _ hx
        · exact hcards _ (getD_mem hclen _) _ (List.drop_subset _ _ hx)
      · rcases eq_or_mem_of_mem_set hcol with rfl | hcol
        · rw [flip_cards] at hx
          exact hcards _ (getD_mem hclen _) _ (List.take_subset _ _ hx)
        · exact hcards _ hcol _ hx
  · -- Waste → Column
    obtain ⟨card, d, hhead, hd, hdst, rfl⟩ := mem_wasteToColMoves.mp h
    obtain ⟨rest, hw⟩ : ∃ rest, tab.waste = card :: rest := by
      cases hwq : tab.waste with
      | nil => rw [hwq] at hhead; simp at hhead
      | cons a t =>
          rw [hwq] at hhead
          simp only [List.head?_cons, Option.some.injEq] at hhead
          exact ⟨t, by rw [hhead]⟩
    have hdlen : d < tab.columns.length := by rw [hcols]; exact hd
    have hcard52 : card < 52 :=
      hwaste _ (by rw [hw]; exact List.mem_cons_self _ _)
    rw [apply_wasteToColumn tab d card rest hw]
    constructor
    · simp only [Tableau.rawCardCount]
      have hs1 := sum_map_set (fun col => col.cards.length) tab.columns hdlen
        { cards := (tab.col d).cards ++ [card]
          num_face_down := (tab.col d).num_face_down } Column.empty
      have hdd : tab.columns.getD d Column.empty = tab.col d := rfl
      rw [hdd] at hs1
      simp only [List.length_append, List.length_cons, List.length_nil] at hs1
      rw [hw]
      simp only [List.length_cons]
      omega
    · refine ⟨by simpa using hcols, hfnd, hstock, ?_, ?_⟩
      · intro x hx
        exact hwaste _ (by rw [hw]; exact List.mem_cons_of_mem _ hx)
      · intro col hcol x hx
        rcases eq_or_mem_of_mem_set hcol with rfl | hcol
        · simp only [List.mem_append, List.mem_singleton] at hx
          rcases hx with hx | rfl
          · exact hcards _ (getD_mem hdlen _) _ hx
          · exact hcard52
        · exact hcards _ hcol _ hx
  · -- FlipColumn
    obtain ⟨c, hc, h0, hfd, rfl⟩ := mem_flipColumnMoves.mp h
    have hclen : c < tab.columns.length := by rw [hcols]; exact hc
    rw [apply_flipColumn tab c ⟨h0, by omega⟩]
    constructor
    · simp only [Tableau.rawCardCount]
      have hs1 := sum_map_set (fun col => col.cards.length) tab.columns hclen
        (flip_exposed_card_after_removal (tab.col c)) Column.empty
      have hcc : tab.columns.getD c Column.empty = tab.col c := rfl
      rw [hcc] at hs1
      simp only [flip_cards] at hs1
      omega
    · refine ⟨by simpa using hcols, hfnd, hstock, hwaste, ?_⟩
      intro col hcol x hx
      rcases eq_or_mem_of_mem_set hcol with rfl | hcol
      · rw [flip_cards] at hx
        exact hcards _ (getD_mem hclen _) _ hx
      · exact hcards _ hcol _ hx
  · -- DealFromStock / RedealStock
    rcases mem_stockMoves.mp h with ⟨hs, rfl⟩ | ⟨hnil, hw, rfl⟩
    · rw [apply_dealFromStock]
      constructor
      · simp only [Tableau.rawCardCount, List.length_drop,
          List.length_append, List.length_reverse, List.length_take]
        omega
      · refine ⟨hcols, hfnd, ?_, ?_, hcards⟩
        · intro x hx
          exact hstock _ (List.drop_subset _ _ hx)
        · intro x hx
          simp only [List.mem_append, List.mem_reverse] at hx
          rcases hx with hx | hx
          · exact hstock _ (List.take_subset _ _ hx)
          · exact hwaste _ hx
    · rw [apply_redealStock]
      constructor
      · simp only [Tableau.rawCardCount, List.length_nil,
          List.length_append, List.length_reverse]
        omega
      · refine ⟨hcols, hfnd, ?_, by simp, hcards⟩
        intro x hx
        simp only [List.mem_append, List.mem_reverse] at hx
        rcases hx with hx | hx
        · exact hwaste _ hx
        · exact hstock _ hx

theorem dealFold_cards_lt (l : List ((Nat × Bool) × Card)) :
    ∀ cols : List Column, (∀ col ∈ cols, ∀ x ∈ col.cards, x < 52) →
      (∀ pc ∈ l, pc.2 < 52) →
      ∀ col ∈ l.foldl dealStep cols, ∀ x ∈ col.cards, x < 52 := by
  induction l with
  | nil => intro cols hcols _ col hcol; exact hcols col hcol
  | cons pc rest ih =>
      intro cols hcols hl col hcol
      refine ih (dealStep cols pc) ?_ (fun q hq => hl q (List.mem_cons_of_mem _ hq))
        col hcol
      intro col' hcol' x hx
      rcases eq_or_mem_of_mem_set hcol' with rfl | hcol'
      · rw [Column.push] at hx
        simp only [List.mem_append, List.mem_singleton] at hx
        rcases hx with hx | rfl
        · by_cases hk : pc.1.1 < cols.length
          · exact hcols _ (getD_mem hk _) _ hx
          · rw [List.getD_eq_default _ _ (by omega)] at hx
            simp [Column.empty] at hx
        · exact hl pc (List.mem_cons_self _ _)
      · exact hcols _ hcol' _ hx

theorem dealFold_sum_lengths (l : List ((Nat × Bool) × Card)) :
    ∀ cols : List Column, (∀ pc ∈ l, pc.1.1 < cols.length) →
      ((l.foldl dealStep cols).map (fun col => col.cards.length)).sum
        = (cols.map (fun col => col.cards.length)).sum + l.length := by
  induction l with
  | nil => intro cols _; rfl
  | cons pc rest ih =>
      intro cols hl
      have hk : pc.1.1 < cols.length := hl pc (List.mem_cons_self _ _)
      have hstep : ((dealStep cols pc).map (fun col => col.cards.length)).sum
          = (cols.map (fun col => col.cards.length)).sum + 1 := by
        have hs : ((cols.set pc.1.1 ((cols.getD pc.1.1 Column.empty).push
              pc.2 pc.1.2)).map (fun col => col.cards.length)).sum
              + (cols.getD pc.1.1 Column.empty).cards.length
            = (cols.map (fun col => col.cards.length)).sum
              + ((cols.getD pc.1.1 Column.empty).push pc.2 pc.1.2).cards.length :=
          sum_map_set (fun col => col.cards.length) cols hk _ _
        rw [dealStep]
        simp only [Column.push, List.length_append, List.length_cons,
          List.length_nil] at hs ⊢
        omega
      rw [List.foldl_cons, ih (dealStep cols pc)
        (fun q hq => by
          rw [dealStep, List.length_set]
          exact hl q (List.mem_cons_of_mem _ hq)), hstep]
      simp only [List.length_cons]
      omega

theorem wf_deal (deck : List Card)
    (hmem : ∀ x ∈ deck, x < 52) : WF (Tableau.deal_from_shuffled deck) := by
  refine ⟨?_, rfl, ?_, ?_, ?_⟩
  · show ((dealPushSeq.zip deck).foldl dealStep
        (List.replicate NUM_COLS Column.empty)).length = NUM_COLS
    rw [dealStep_foldl_length, List.length_replicate]
  · intro x hx
    exact hmem _ (List.drop_subset _ _ hx)
  · intro x hx
    simp [Tableau.deal_from_shuffled] at hx
  · exact dealFold_cards_lt _ _
      (by intro col hcol x hx
          rw [List.eq_of_mem_replicate hcol] at hx
          simp [Column.empty] at hx)
      (fun pc hpc => hmem _ (List.of_mem_zip hpc).2)

theorem raw_deal (deck : List Card) (hlen : deck.length = 52) :
    (Tableau.deal_from_shuffled deck).rawCardCount = 52 := by
  rw [Tableau.rawCardCount]
  have h28 : dealPushSeq.length = 28 := by decide
  have hstock : (Tableau.deal_from_shuffled deck).stock.length = 24 := by
    show (deck.drop dealPushSeq.length).length = 24
    rw [List.length_drop, hlen, h28]
  have hzlen : (dealPushSeq.zip deck).length = 28 := by
    rw [List.length_zip, h28, hlen]
    decide
  have hsum : ((Tableau.deal_from_shuffled deck).columns.map
      (fun col => col.cards.length)).sum = 28 := by
    show (((dealPushSeq.zip deck).foldl dealStep
        (List.replicate NUM_COLS Column.empty)).map
          (fun col => col.cards.length)).sum = 28
    rw [dealFold_sum_lengths _ _
      (fun pc hpc => by
        rw [List.length_replicate]
        have h1 : pc.1 ∈ dealPushSeq := (List.of_mem_zip hpc).1
        have h2 : ∀ q ∈ dealPushSeq, q.1 < NUM_COLS := by decide
        exact h2 _ h1), hzlen]
    rfl
  rw [hstock, hsum]
  show 24 + (List.length []) + 28 + (List.replicate NUM_FOUNDATIONS 0).sum = 52
  rfl

/-- The positions reachable from dealing `deck` by applying only moves
returned by `generate_legal_moves`. -/
inductive ReachableTab (deck : List Card) : Tableau → Prop
  | base : ReachableTab deck (Tableau.deal_from_shuffled deck)
  | step : ∀ {tab : Tableau} {mv : Move}, ReachableTab deck tab →
      mv ∈ generate_legal_moves tab → ReachableTab deck (mv.apply tab)

theorem reachable_wf_raw {deck : List Card} {tab : Tableau}
    (hlen : deck.length = 52) (hmem : ∀ x ∈ deck, x < 52)
    (hr : ReachableTab deck tab) : WF tab ∧ tab.rawCardCount = 52 := by
  induction hr with
  | base => exact ⟨wf_deal deck hmem, raw_deal deck hlen⟩
  | step hr hm ih =>
      obtain ⟨hwf, hraw⟩ := ih
      obtain ⟨hraw2, hwf2⟩ := apply_legal_preserves _ _ hwf hm
      exact ⟨hwf2, by rw [hraw2, hraw]⟩

/-- C4: for every position reachable from dealing a 52-card permutation by
legal moves only, applying any move returned by `generate_legal_moves`
leaves `total_cards()` equal to 52. -/
theorem legal_move_conserves_total_cards (deck : List Card) (tab : Tableau)
    (mv : Move) (hperm : deck.Perm (List.range 52))
    (hr : ReachableTab deck tab) (hm : mv ∈ generate_legal_moves tab) :
    (mv.apply tab).total_cards = 52 := by
  have hlen : deck.length = 52 := by rw [hperm.length_eq, List.length_range]
  have hmem : ∀ x ∈ deck, x < 52 := fun x hx =>
    List.mem_range.mp (hperm.mem_iff.mp hx)
  obtain ⟨hwf, hraw⟩ := reachable_wf_raw hlen hmem hr
  obtain ⟨hraw2, _⟩ := apply_legal_preserves tab mv hwf hm
  rw [Tableau.total_cards, hraw2, hraw]

/-- Witness for C4: dealing from the stock of the freshly dealt ordered
deck conserves the 52-card total. -/
theorem legal_move_conserves_total_cards_witness :
    (Move.DealFromStock.apply
        (Tableau.deal_from_shuffled (List.range 52))).total_cards = 52 :=
  legal_move_conserves_total_cards (List.range 52) _ Move.DealFromStock
    (List.Perm.refl _) ReachableTab.base (by decide)

/-! ## Claim C5: auto-exposure restores the column invariant -/

/-- The column invariant: a non-empty column always has at least one
face-up card (`num_face_down < len`), and an empty column has no
face-down count. -/
def column_invariant (col : Column) : Prop :=
  (col.cards ≠ [] → col.num_face_down < col.cards.length)
    ∧ (col.cards = [] → col.num_face_down = 0)

instance (col : Column) : Decidable (column_invariant col) :=
  decidable_of_iff
    ((col.cards ≠ [] → col.num_face_down < col.cards.length)
      ∧ (col.cards = [] → col.num_face_down = 0)) Iff.rfl

/-- When removal has left exactly the face-down prefix (and it is
non-empty), the automatic flip decrements `num_face_down` by one. -/
theorem flip_eq_of_all_face_down {l : List Card} {fd : Nat}
    (h1 : 0 < l.length) (h2 : l.length = fd) :
    flip_exposed_card_after_removal ⟨l, fd⟩ = ⟨l, fd - 1⟩ := by
  rw [flip_exposed_card_after_removal, if_pos]
  exact ⟨h1, h2⟩

/-- When a face-up card remains (or the column is empty), the automatic
flip does nothing. -/
theorem flip_eq_of_not_all_face_down {l : List Card} {fd : Nat}
    (h : ¬ (0 < l.length ∧ l.length = fd)) :
    flip_exposed_card_after_removal ⟨l, fd⟩ = ⟨l, fd⟩ := by
  rw [flip_exposed_card_after_removal, if_neg]
  exact h

/-- The automatic flip restores the column invariant whenever the
face-down count does not exceed the length. -/
theorem column_invariant_flip (l : List Card) (fd : Nat)
    (hfd : fd ≤ l.length) :
    column_invariant (flip_exposed_card_after_removal ⟨l, fd⟩) := by
  by_cases hc : 0 < l.length ∧ l.length = fd
  · rw [flip_eq_of_all_face_down hc.1 hc.2]
    obtain ⟨h1, h2⟩ := hc
    constructor
    · intro _
      change fd - 1 < l.length
      omega
    · intro hnil
      change l = [] at hnil
      rw [hnil] at h1
      simp at h1
  · rw [flip_eq_of_not_all_face_down hc]
    rw [not_and_or] at hc
    constructor
    · intro hne
      change l ≠ [] at hne
      change fd < l.length
      have h0 : 0 < l.length := List.length_pos.mpr hne
      rcases hc with hc | hc <;> omega
    · intro hnil
      change l = [] at hnil
      change fd = 0
      rw [hnil] at hfd
      simpa using hfd

/-- Invariant of a column that just received extra cards on top (its
`num_face_down` unchanged). -/
theorem column_invariant_append {col : Column} (hcol : column_invariant col)
    (extra : List Card) (hextra : extra ≠ []) :
    column_invariant { cards := col.cards ++ extra
                       num_face_down := col.num_face_down } := by
  obtain ⟨h1, h2⟩ := hcol
  have hlen : 0 < extra.length := List.length_pos.mpr hextra
  constructor
  · intro _
    show col.num_face_down < (col.cards ++ extra).length
    rw [List.length_append]
    by_cases hnil : col.cards = []
    · rw [h2 hnil]
      omega
    · have := h1 hnil
      omega
  · intro hnil
    simp only [List.append_eq_nil] at hnil
    exact absurd hnil.2 hextra

/-- C5: applying any legal move to a tableau whose columns satisfy the
column invariant (and whose column array has the fixed length 7):
(a) whenever the move removed cards from some column `j` leaving exactly
the face-down prefix (`new length = old num_face_down`) with face-down
cards remaining, the resulting column has exactly one fewer face-down
card and at least one face-up card; and (b) every column of the resulting
tableau again satisfies the invariant, so in particular every non-empty
column has `num_face_down < len` when move application returns. -/
theorem legal_move_preserves_column_invariant (tab : Tableau) (mv : Move)
    (hcols : tab.columns.length = NUM_COLS)
    (hinv : ∀ col ∈ tab.columns, column_invariant col)
    (hm : mv ∈ generate_legal_moves tab) :
    (∀ j, ((mv.apply tab).col j).cards.length < (tab.col j).cards.length →
        ((mv.apply tab).col j).cards.length = (tab.col j).num_face_down →
        0 < (tab.col j).num_face_down →
        ((mv.apply tab).col j).num_face_down = (tab.col j).num_face_down - 1
          ∧ 0 < ((mv.apply tab).col j).num_face_up)
    ∧ (∀ col ∈ (mv.apply tab).columns, column_invariant col) := by
  rcases mem_generate_legal_moves.mp hm with h | h | h | h | h | h
  · -- Column → Foundation
    obtain ⟨c, hc, h0, hfdlt, hcan, rfl⟩ := mem_colToFoundationMoves.mp h
    have hclen : c < tab.columns.length := by rw [hcols]; exact hc
    rw [apply_columnToFoundation tab c (by omega)]
    constructor
    · intro j h1 h2 h3
      change ((tab.columns.set c _).getD j Column.empty).cards.length < _ at h1
      change ((tab.columns.set c _).getD j Column.empty).cards.length = _ at h2
      show ((tab.columns.set c _).getD j Column.empty).num_face_down = _
        ∧ 0 < ((tab.columns.set c _).getD j Column.empty).num_face_up
      by_cases hjc : j = c
      · subst hjc
        rw [getD_set_self hclen] at h1 h2 ⊢
        have hdlen : ((tab.col j).cards.dropLast).length
            = (tab.col j).cards.length - 1 := by simp
        rw [flip_cards] at h1 h2
        change ((tab.col j).cards.dropLast).length < _ at h1
        change ((tab.col j).cards.dropLast).length = _ at h2
        have hflip := @flip_eq_of_all_face_down ((tab.col j).cards.dropLast)
          ((tab.col j).num_face_down) (by omega) (by omega)
        rw [hflip]
        refine ⟨rfl, ?_⟩
        show 0 < (tab.col j).cards.dropLast.length
          - ((tab.col j).num_face_down - 1)
        omega
      · rw [getD_set_ne _ (fun hh => hjc hh.symm)] at h1
        change (tab.col j).cards.length < (tab.col j).cards.length at h1
        omega
    · intro col hcol
      rcases eq_or_mem_of_mem_set hcol with rfl | hcol
      · refine column_invariant_flip _ _ ?_
        show (tab.col c).num_face_down ≤ ((tab.col c).cards.dropLast).length
        have hdlen : ((tab.col c).cards.dropLast).length
            = (tab.col c).cards.length - 1 := by simp
        omega
      · exact hinv _ hcol
  · -- Waste → Foundation: columns unchanged
    obtain ⟨card, hhead, hcan, rfl⟩ := mem_wasteToFoundationMoves.mp h
    obtain ⟨rest, hw⟩ : ∃ rest, tab.waste = card :: rest := by
      cases hwq : tab.waste with
      | nil => rw [hwq] at hhead; simp at hhead
      | cons a t =>
          rw [hwq] at hhead
          simp only [List.head?_cons, Option.some.injEq] at hhead
          exact ⟨t, by rw [hhead]⟩
    rw [apply_wasteToFoundation tab card rest hw]
    refine ⟨fun j h1 _ _ => absurd h1 ?_, hinv⟩
    change ¬ ((tab.col j).cards.length < (tab.col j).cards.length)
    omega
  · -- Column → Column
    obtain ⟨c, s, d, hc, hd, hdc, hfds, hslt, hrun, hdst, rfl⟩ :=
      mem_colToColMoves.mp h
    have hclen : c < tab.columns.length := by rw [hcols]; exact hc
    have hdlen : d < tab.columns.length := by rw [hcols]; exact hd
    have hne : ¬ c = d := fun hcd => hdc hcd.symm
    rw [apply_columnToColumn tab c s d hne hslt]
    have hdlen1 : d < (tab.columns.set c (flip_exposed_card_after_removal
        { cards := (tab.col c).cards.take s
          num_face_down := (tab.col c).num_face_down })).length := by
      rw [List.length_set]; exact hdlen
    have hdropne : (tab.col c).cards.drop s ≠ [] := by
      intro hnil
      have := List.drop_eq_nil_iff.mp hnil
      omega
    have htk : ((tab.col c).cards.take s).length = s := by
      rw [List.length_take]; omega
    constructor
    · intro j h1 h2 h3
      change (((tab.columns.set c _).set d _).getD j Column.empty).cards.length
        < _ at h1
      change (((tab.columns.set c _).set d _).getD j Column.empty).cards.length
        = _ at h2
      show (((tab.columns.set c _).set d _).getD j
          Column.empty).num_face_down = _
        ∧ 0 < (((tab.columns.set c _).set d _).getD j Column.empty).num_face_up
      by_cases hjd : j = d
      · subst hjd
        rw [getD_set_self hdlen1] at h1
        have hdroplen : 0 < ((tab.col c).cards.drop s).length :=
          List.length_pos.mpr hdropne
        change ((tab.col j).cards ++ (tab.col c).cards.drop s).length
          < (tab.col j).cards.length at h1
        rw [List.length_append] at h1
        omega
      · rw [getD_set_ne _ (fun hh => hjd hh.symm)] at h1 h2 ⊢
        by_cases hjc : j = c
        · subst hjc
          rw [getD_set_self hclen] at h1 h2 ⊢
          rw [flip_cards] at h1 h2
          change ((tab.col j).cards.take s).length < _ at h1
          change ((tab.col j).cards.take s).length = _ at h2
          rw [htk] at h1 h2
          have hflip := @flip_eq_of_all_face_down ((tab.col j).cards.take s)
            ((tab.col j).num_face_down) (by omega) (by omega)
          rw [hflip]
          refine ⟨rfl, ?_⟩
          show 0 < ((tab.col j).cards.take s).length
            - ((tab.col j).num_face_down - 1)
          omega
        · rw [getD_set_ne _ (fun hh => hjc hh.symm)] at h1
          change (tab.col j).cards.length < (tab.col j).cards.length at h1
          omega
    · intro col hcol
      rcases eq_or_mem_of_mem_set hcol with rfl | hcol
      · exact column_invariant_append (hinv _ (getD_mem hdlen _)) _ hdropne
      · rcases eq_or_mem_of_mem_set hcol with rfl | hcol
        · refine column_invariant_flip _ _ ?_
          show (tab.col c).num_face_down ≤ ((tab.col c).cards.take s).length
          omega
        · exact hinv _ hcol
  · -- Waste → Column
    obtain ⟨card, d, hhead, hd, hdst, rfl⟩ := mem_wasteToColMoves.mp h
    obtain ⟨rest, hw⟩ : ∃ rest, tab.waste = card :: rest := by
      cases hwq : tab.waste with
      | nil => rw [hwq] at hhead; simp at hhead
      | cons a t =>
          rw [hwq] at hhead
          simp only [List.head?_cons, Option.some.injEq] at hhead
          exact ⟨t, by rw [hhead]⟩
    have hdlen : d < tab.columns.length := by rw [hcols]; exact hd
    rw [apply_wasteToColumn tab d card rest hw]
    constructor
    · intro j h1 h2 h3
      change ((tab.columns.set d _).getD j Column.empty).cards.length < _ at h1
      by_cases hjd : j = d
      · subst hjd
        rw [getD_set_self hdlen] at h1
        change ((tab.col j).cards ++ [card]).length
          < (tab.col j).cards.length at h1
        rw [List.length_append] at h1
        simp at h1
      · rw [getD_set_ne _ (fun hh => hjd hh.symm)] at h1
        change (tab.col j).cards.length < (tab.col j).cards.length at h1
        omega
    · intro col hcol
      rcases eq_or_mem_of_mem_set hcol with rfl | hcol
      · exact column_invariant_append (hinv _ (getD_mem hdlen _)) _ (by simp)
      · exact hinv _ hcol
  · -- FlipColumn: never generated from an invariant-satisfying tableau
    obtain ⟨c, hc, h0, hfd, rfl⟩ := mem_flipColumnMoves.mp h
    have hclen : c < tab.columns.length := by rw [hcols]; exact hc
    have := (hinv _ (getD_mem hclen Column.empty)).1
      (List.ne_nil_of_length_pos h0)
    change (tab.col c).num_face_down < (tab.col c).cards.length at this
    omega
  · -- DealFromStock / RedealStock: columns unchanged
    rcases mem_stockMoves.mp h with ⟨hs, rfl⟩ | ⟨hnil, hwlen, rfl⟩
    · rw [apply_dealFromStock]
      refine ⟨fun j h1 _ _ => absurd h1 ?_, hinv⟩
      change ¬ ((tab.col j).cards.length < (tab.col j).cards.length)
      omega
    · rw [apply_redealStock]
      refine ⟨fun j h1 _ _ => absurd h1 ?_, hinv⟩
      change ¬ ((tab.col j).cards.length < (tab.col j).cards.length)
      omega

/-- Witness for C5: from the ordered-deck deal (all columns satisfy the
invariant), moving the Ace of Spades from column 1 to its foundation
empties that column's face-up suffix; the theorem applies. -/
theorem legal_move_preserves_column_invariant_witness :
    (∀ j, (((Move.ColumnToFoundation 1).apply
          (Tableau.deal_from_shuffled (List.range 52))).col j).cards.length
          < ((Tableau.deal_from_shuffled (List.range 52)).col j).cards.length →
        (((Move.ColumnToFoundation 1).apply
          (Tableau.deal_from_shuffled (List.range 52))).col j).cards.length
          = ((Tableau.deal_from_shuffled (List.range 52)).col j).num_face_down →
        0 < ((Tableau.deal_from_shuffled (List.range 52)).col j).num_face_down →
        (((Move.ColumnToFoundation 1).apply
          (Tableau.deal_from_shuffled (List.range 52))).col j).num_face_down
          = ((Tableau.deal_from_shuffled (List.range 52)).col j).num_face_down - 1
          ∧ 0 < (((Move.ColumnToFoundation 1).apply
              (Tableau.deal_from_shuffled (List.range 52))).col j).num_face_up)
    ∧ (∀ col ∈ ((Move.ColumnToFoundation 1).apply
        (Tableau.deal_from_shuffled (List.range 52))).columns,
        column_invariant col) :=
  legal_move_preserves_column_invariant
    (Tableau.deal_from_shuffled (List.range 52)) (Move.ColumnToFoundation 1)
    (by decide)
    (by decide)
    (by decide)

/-! ## Claims C2 and C3: the bounded DFS solver -/

/-- Invariant of every `GameState` on the DFS stack of a solve of `deck`:
it records `deck` as its initial deck and its cached tableau is the replay
of its move list from the deal. -/
def StateInv (deck : List Card) (s : GameState) : Prop :=
  s.initial_deck = deck ∧ s.tableau = s.recompute_tableau_from_history

theorem stateInv_new (deck : List Card) : StateInv deck (GameState.new deck) :=
  ⟨rfl, rfl⟩

theorem stateInv_apply_move {deck : List Card} {s : GameState}
    (hs : StateInv deck s) (mv : Move) : StateInv deck (s.apply_move mv) := by
  obtain ⟨hdeck, ht⟩ := hs
  refine ⟨hdeck, ?_⟩
  show mv.apply s.tableau
    = (s.moves ++ [mv]).foldl (fun tab mv => mv.apply tab)
        (Tableau.deal_from_shuffled s.initial_deck)
  rw [List.foldl_append]
  exact congrArg mv.apply ht

/-- Every state on the stack produced by child expansion is either an old
stack entry or the parent state advanced by one move. -/
theorem mem_expandChildren_stack {state s' : GameState} :
    ∀ (mvs : List Move) (stack : List GameState) (visited : List Nat),
      s' ∈ (expandChildren state mvs stack visited).1 →
      s' ∈ stack ∨ ∃ mv, s' = state.apply_move mv := by
  have hgo : ∀ (l : List Move) (sv : List GameState × List Nat),
      s' ∈ (l.foldl (fun sv mv =>
        let child := state.apply_move mv
        if child.tableau_hash ∈ sv.2 then sv
        else (child :: sv.1, child.tableau_hash :: sv.2)) sv).1 →
      s' ∈ sv.1 ∨ ∃ mv, s' = state.apply_move mv := by
    intro l
    induction l with
    | nil => intro sv h; exact Or.inl h
    | cons mv rest ih =>
        intro sv h
        rw [List.foldl_cons] at h
        rcases ih _ h with h2 | h2
        · by_cases hmem : (state.apply_move mv).tableau_hash ∈ sv.2
          · rw [if_pos hmem] at h2
            exact Or.inl h2
          · rw [if_neg hmem] at h2
            rcases List.mem_cons.mp h2 with rfl | h2
            · exact Or.inr ⟨mv, rfl⟩
            · exact Or.inl h2
        · exact Or.inr h2
  intro mvs stack visited h
  exact hgo mvs.reverse (stack, visited) h

/-- If a solve run reports a win, its winning line replays from the deal
to a winning tableau (the loop invariant version). -/
theorem solveLoop_win_sound (deck : List Card) (cfg : SearchConfig) :
    ∀ (fuel : Nat) (stack : List GameState) (visited : List Nat) (n : Nat),
      (∀ s ∈ stack, StateInv deck s) →
      (solveLoop deck cfg fuel stack visited n).is_win = true →
      ∃ l, (solveLoop deck cfg fuel stack visited n).winning_line = some l
        ∧ (l.foldl (fun tab mv => mv.apply tab)
            (Tableau.deal_from_shuffled deck)).is_win = true := by
  intro fuel
  induction fuel with
  | zero => intro stack visited n _ hwin; simp [solveLoop] at hwin
  | succ fuel ih =>
      intro stack visited n hstack hwin
      cases stack with
      | nil => simp [solveLoop] at hwin
      | cons state rest =>
          rw [solveLoop] at hwin ⊢
          by_cases h1 : cfg.limits.max_nodes < n + 1
          · rw [if_pos h1] at hwin; simp at hwin
          rw [if_neg h1] at hwin ⊢
          by_cases h2 : state.tableau.is_win = true
          · rw [if_pos h2] at hwin ⊢
            obtain ⟨hdeck, ht⟩ := hstack state (List.mem_cons_self _ _)
            refine ⟨state.moves, rfl, ?_⟩
            have : state.recompute_tableau_from_history
                = state.moves.foldl (fun tab mv => mv.apply tab)
                    (Tableau.deal_from_shuffled deck) := by
              rw [GameState.recompute_tableau_from_history, hdeck]
            rw [← this, ← ht]
            exact h2
          rw [if_neg h2] at hwin ⊢
          by_cases h3 : cfg.limits.max_depth ≤ state.moves.length
          · rw [if_pos h3] at hwin ⊢
            exact ih rest visited (n + 1)
              (fun s hs => hstack s (List.mem_cons_of_mem _ hs)) hwin
          · rw [if_neg h3] at hwin ⊢
            refine ih _ _ (n + 1) ?_ hwin
            intro s hs
            rcases mem_expandChildren_stack _ _ _ hs with hs | ⟨mv, rfl⟩
            · exact hstack s (List.mem_cons_of_mem _ hs)
            · exact stateInv_apply_move
                (hstack state (List.mem_cons_self _ _)) mv

/-- C2: if `solve_single_deck_with_config` reports a win, the returned
`winning_line` is `some` list of moves whose replay — dealing the same
permutation with `Tableau::deal_from_shuffled` and applying each move with
`Move::apply` in order — reaches a tableau whose `is_win` is true. -/
theorem solver_win_replays_to_win (deck : List Card) (cfg : SearchConfig)
    (h : (solve_single_deck_with_config deck cfg).is_win = true) :
    ∃ l, (solve_single_deck_with_config deck cfg).winning_line = some l
      ∧ (l.foldl (fun tab mv => mv.apply tab)
          (Tableau.deal_from_shuffled deck)).is_win = true :=
  solveLoop_win_sound deck cfg (cfg.limits.max_nodes + 1)
    [GameState.new deck] [(GameState.new deck).tableau_hash] 0
    (by
      intro s hs
      rcases List.mem_singleton.mp hs with rfl
      exact stateInv_new deck) h

/-- A concrete deck engineered so the DFS finds a win quickly: the columns
unload straight to the foundations (clubs, then spades from columns 1 and
0, then hearts), and the 24 stock cards come in draw-3 groups whose play
order continues the foundations (spades 3..K, then all diamonds). -/
def winDeck : List Card :=
  [6, 12, 17, 21, 24, 26, 5, 11, 16, 20, 23, 4, 10, 15, 19, 3, 9, 14, 2, 8,
   1, 0, 7, 13, 18, 22, 25, 27,
   30, 29, 28, 33, 32, 31, 36, 35, 34, 39, 38, 37, 42, 41, 40, 45, 44, 43,
   48, 47, 46, 51, 50, 49]

set_option maxRecDepth 100000 in
set_option maxHeartbeats 2000000 in
/-- Witness for C2: the engineered deck is solved (is_win) within 200
nodes and depth 80, and the theorem applies. -/
theorem solver_win_replays_to_win_witness :
    ∃ l, (solve_single_deck_with_config winDeck
        ⟨⟨200, 80⟩, DetailLevel.Summary⟩).winning_line = some l
      ∧ (l.foldl (fun tab mv => mv.apply tab)
          (Tableau.deal_from_shuffled winDeck)).is_win = true :=
  solver_win_replays_to_win winDeck ⟨⟨200, 80⟩, DetailLevel.Summary⟩ (by decide)

/-- The pop counter of the DFS loop never exceeds `max_nodes + 1`. -/
theorem solveLoop_nodes_le (deck : List Card) (cfg : SearchConfig) :
    ∀ (fuel : Nat) (stack : List GameState) (visited : List Nat) (n : Nat),
      n ≤ cfg.limits.max_nodes →
      (solveLoop deck cfg fuel stack visited n).nodes_visited
        ≤ cfg.limits.max_nodes + 1 := by
  intro fuel
  induction fuel with
  | zero => intro stack visited n hn; simp [solveLoop]; omega
  | succ fuel ih =>
      intro stack visited n hn
      cases stack with
      | nil => simp [solveLoop]; omega
      | cons state rest =>
          rw [solveLoop]
          by_cases h1 : cfg.limits.max_nodes < n + 1
          · rw [if_pos h1]; simp; omega
          rw [if_neg h1]
          by_cases h2 : state.tableau.is_win = true
          · rw [if_pos h2]; simp; omega
          rw [if_neg h2]
          by_cases h3 : cfg.limits.max_depth ≤ state.moves.length
          · rw [if_pos h3]
            exact ih rest visited (n + 1) (by omega)
          · rw [if_neg h3]
            exact ih _ _ (n + 1) (by omega)

/-- The DFS loop is fuel-independent once the fuel covers the remaining
node budget: the Rust `while` loop (which has no fuel) performs at most
`max_nodes + 1 - n` further iterations. -/
theorem solveLoop_fuel_irrelevant (deck : List Card) (cfg : SearchConfig) :
    ∀ (f1 f2 : Nat) (stack : List GameState) (visited : List Nat) (n : Nat),
      n ≤ cfg.limits.max_nodes →
      cfg.limits.max_nodes < n + f1 → cfg.limits.max_nodes < n + f2 →
      solveLoop deck cfg f1 stack visited n
        = solveLoop deck cfg f2 stack visited n := by
  intro f1
  induction f1 with
  | zero => intro f2 stack visited n hn h1 _; omega
  | succ f1 ih =>
      intro f2 stack visited n hn h1 h2
      cases f2 with
      | zero => omega
      | succ f2 =>
          cases stack with
          | nil => rw [solveLoop, solveLoop]
          | cons state rest =>
              rw [solveLoop, solveLoop]
              by_cases hb : cfg.limits.max_nodes < n + 1
              · rw [if_pos hb, if_pos hb]
              rw [if_neg hb, if_neg hb]
              by_cases hw : state.tableau.is_win = true
              · rw [if_pos hw, if_pos hw]
              rw [if_neg hw, if_neg hw]
              by_cases hd : cfg.limits.max_depth ≤ state.moves.length
              · rw [if_pos hd, if_pos hd]
                exact ih f2 rest visited (n + 1) (by omega) (by omega) (by omega)
              · rw [if_neg hd, if_neg hd]
                exact ih f2 _ _ (n + 1) (by omega) (by omega) (by omega)

/-- C3 (amended): for every deal and configuration the solve terminates —
the loop runs at most `max_nodes + 1` iterations (one pop each), so the
reported `nodes_visited` (the pop count) is at most `max_nodes + 1`, and
any fuel of at least `max_nodes + 1` produces the identical outcome.  The
bound `max_nodes` itself is off by one: see the counterexample below. -/
theorem solver_terminates_within_budget (deck : List Card)
    (cfg : SearchConfig) :
    (solve_single_deck_with_config deck cfg).nodes_visited
        ≤ cfg.limits.max_nodes + 1
    ∧ ∀ fuel, cfg.limits.max_nodes + 1 ≤ fuel →
        solveLoop deck cfg fuel [GameState.new deck]
            [(GameState.new deck).tableau_hash] 0
          = solve_single_deck_with_config deck cfg := by
  constructor
  · exact solveLoop_nodes_le deck cfg _ _ _ 0 (by omega)
  · intro fuel hfuel
    exact solveLoop_fuel_irrelevant deck cfg fuel (cfg.limits.max_nodes + 1)
      _ _ 0 (by omega) (by omega) (by omega)

/-- Witness for C3 at a concrete deck and configuration. -/
theorem solver_terminates_within_budget_witness :
    ((solve_single_deck_with_config (List.range 52)
        ⟨⟨0, 100⟩, DetailLevel.Summary⟩).nodes_visited ≤ 0 + 1)
    ∧ solveLoop (List.range 52) ⟨⟨0, 100⟩, DetailLevel.Summary⟩ 5
        [GameState.new (List.range 52)]
        [(GameState.new (List.range 52)).tableau_hash] 0
      = solve_single_deck_with_config (List.range 52)
          ⟨⟨0, 100⟩, DetailLevel.Summary⟩ :=
  ⟨(solver_terminates_within_budget (List.range 52)
      ⟨⟨0, 100⟩, DetailLevel.Summary⟩).1,
   (solver_terminates_within_budget (List.range 52)
      ⟨⟨0, 100⟩, DetailLevel.Summary⟩).2 5 (by decide)⟩

/-- Counterexample to C3 as stated: with `max_nodes = 0` the solver still
pops one node, so the number of steps (and the reported `nodes_visited`)
exceeds the node budget `max_nodes`. -/
theorem solver_exceeds_stated_budget :
    ¬ ((solve_single_deck_with_config (List.range 52)
        ⟨⟨0, 100⟩, DetailLevel.Summary⟩).nodes_visited ≤ 0) := by
  decide

/-! ## Claim C1: the outcome carries no termination reason -/

/-- C1 (the code as captured): `GameOutcome` has only the four fields
`initial_deck`, `is_win`, `winning_line`, `nodes_visited`.  A run stopped
by the node budget (`max_nodes = 0`) and a run stopped by the depth budget
(`max_depth = 0`) return LITERALLY EQUAL outcomes — there is no
termination-reason field and no dead-end / loop-pruned / stack-depth
counter to distinguish them (the five-variant `TerminationReason` enum
exists in `game.rs` but `solve_single_deck_with_config` never reports
one). -/
theorem solver_budget_stops_conflated :
    solve_single_deck_with_config (List.range 52)
        ⟨⟨0, 100⟩, DetailLevel.Summary⟩
      = solve_single_deck_with_config (List.range 52)
          ⟨⟨100, 0⟩, DetailLevel.Summary⟩
    ∧ solve_single_deck_with_config (List.range 52)
        ⟨⟨0, 100⟩, DetailLevel.Summary⟩
      = { initial_deck := List.range 52, is_win := false
          winning_line := none, nodes_visited := 1 } := by
  constructor <;> decide

end Klondike
